import Mathlib

/-!
Verification of the IRMV robot task-planning backend against its
natural-language specification.

The development shallowly embeds the Python source of the repository:
pure string manipulation is modelled over `List Char` (so that every
definition evaluates inside the kernel), stateful code is modelled by
explicit state passing, and external systems (the HermiT reasoner, the
Neo4j driver, rdflib, the OpenAI embedding service) appear either as
explicit parameters constrained by hypotheses or as the data they
deliver.  Each embedded definition is named after the Python function it
translates.
-/

namespace Util

/-- Character list standing for a Python `str`; all string operations of
the embedding are defined over it so that they reduce in the kernel. -/
abbrev Str := List Char

/-- Characters of a Lean string literal. -/
def str (s : String) : Str := s.data

/-- Test whether `p` is a leading segment of `s`. -/
def pfxB : Str → Str → Bool
  | [], _ => true
  | _ :: _, [] => false
  | p :: ps, c :: cs => p == c && pfxB ps cs

/-- Python `pat in s` (substring containment, `pat` nonempty in all uses). -/
def subIn (pat : Str) : Str → Bool
  | [] => pfxB pat []
  | c :: cs => pfxB pat (c :: cs) || subIn pat cs

/-- Worker for `repAll`; the fuel starts at the input length and
dominates it throughout. -/
def repAllGo (pat rep : Str) : Nat → Str → Str
  | 0, s => s
  | _ + 1, [] => []
  | fuel + 1, c :: cs =>
    if pfxB pat (c :: cs) ∧ pat ≠ [] then
      rep ++ repAllGo pat rep fuel (cs.drop (pat.length - 1))
    else
      c :: repAllGo pat rep fuel cs

/-- Python `s.replace(pat, rep)`: replace all non-overlapping occurrences
left to right. -/
def repAll (pat rep s : Str) : Str := repAllGo pat rep s.length s

/-- Whitespace set of Python `str.strip` / `str.split()` (ASCII). -/
def isPySpace (c : Char) : Bool :=
  c == ' ' || c == '\t' || c == '\n' || c == '\r' || c == '\x0b' || c == '\x0c'

/-- Python `s.strip()`. -/
def trimPy (s : Str) : Str :=
  ((s.dropWhile isPySpace).reverse.dropWhile isPySpace).reverse

/-- Worker for `splitWs`, accumulating the current word reversed. -/
def splitWsGo : Str → Str → List Str
  | [], acc => if acc = [] then [] else [acc.reverse]
  | c :: cs, acc =>
    if isPySpace c then
      if acc = [] then splitWsGo cs [] else acc.reverse :: splitWsGo cs []
    else splitWsGo cs (c :: acc)

/-- Python `s.split()` — split on whitespace runs, dropping empties. -/
def splitWs (s : Str) : List Str := splitWsGo s []

/-- Split a string at a single separator character, keeping empties
(used for Python `s.split('\n')` and `s.split('#')`). -/
def splitCh (sep : Char) : Str → List Str
  | [] => [[]]
  | c :: cs =>
    let r := splitCh sep cs
    if c == sep then [] :: r
    else
      match r with
      | [] => [[c]]
      | w :: ws => (c :: w) :: ws

/-- Python `s.split(sep)[-1]` for a character separator. -/
def afterLast (sep : Char) (s : Str) : Str :=
  ((splitCh sep s).getLast?).getD []

/-- Python `str.upper` (ASCII). -/
def ucs (s : Str) : Str := s.map Char.toUpper

/-- Python `s.strip('<>')` as used on SPARQL triple tokens: remove any
leading and trailing characters drawn from the given set. -/
def stripSet (set : List Char) (s : Str) : Str :=
  ((s.dropWhile (set.contains ·)).reverse.dropWhile (set.contains ·)).reverse

/-- First-occurrence deduplication (Python `set` insertion order model). -/
def dedupF [DecidableEq α] : List α → List α
  | [] => []
  | a :: as => a :: (dedupF as).filter (· ≠ a)

/-- Lookup in an association list (leftmost binding). -/
def alookup [DecidableEq α] (k : α) : List (α × β) → Option β
  | [] => none
  | (a, b) :: r => if a = k then some b else alookup k r

/-- Insert a binding only when the key is absent (Python
`if k not in d: d[k] = v`). -/
def insAbsent [DecidableEq α] (k : α) (v : β) (m : List (α × β)) : List (α × β) :=
  match alookup k m with
  | some _ => m
  | none => m ++ [(k, v)]

/-- Overwriting insert (Python `d[k] = v`): an existing key keeps its
position, a new key is appended. -/
def insOver [DecidableEq α] (k : α) (v : β) (m : List (α × β)) : List (α × β) :=
  match alookup k m with
  | some _ => m.map (fun kv => if kv.1 = k then (k, v) else kv)
  | none => m ++ [(k, v)]

/-- Lexicographic comparison of character lists (Python string `<=`). -/
def lexLe : Str → Str → Bool
  | [], _ => true
  | _ :: _, [] => false
  | a :: as, b :: bs =>
    if a.toNat < b.toNat then true
    else if b.toNat < a.toNat then false
    else lexLe as bs

/-- Insertion into a lexicographically sorted list. -/
def insSorted (a : Str) : List Str → List Str
  | [] => [a]
  | b :: bs => if lexLe a b then a :: b :: bs else b :: insSorted a bs

/-- Python `sorted` on strings (insertion sort, stable, ascending). -/
def sortStr : List Str → List Str
  | [] => []
  | a :: as => insSorted a (sortStr as)

end Util

namespace SparqlApi

/-!
Embedding of the `/sparql/update` endpoint handler
`execute_sparql_update` of `ontology_server/core/api.py`.

The asserted OWL model is reduced to the data the handler touches: a
list of individuals, each with a list of object-property values, plus
the set of object-property names defined by the schema.  The reasoner
and the Neo4j sync are external to the parsing/application logic under
study; the handler invokes them after applying the parsed triples, and
their success is a parameter `syncOk`.
-/

open Util

/-- An individual of the asserted model as seen by the endpoint: an id
(local name) and, per object property, the list of target ids. -/
structure Ind where
  id : Str
  props : List (Str × List Str)
deriving DecidableEq, Repr

/-- Asserted-model fragment touched by the endpoint. -/
structure Model where
  inds : List Ind
  propNames : List Str
deriving DecidableEq, Repr

/-- Python `manager.ontology.search_one(iri=f"*{x}")`: find the
individual whose id is `x`. -/
def searchOne (m : Model) (x : Str) : Option Ind :=
  m.inds.find? (fun i => i.id == x)

/-- Replace an individual (matched by id) by an updated copy. -/
def putInd (m : Model) (i : Ind) : Model :=
  { m with inds := m.inds.map (fun j => if j.id == i.id then i else j) }

/-- Values of one property on an individual (missing property reads as `[]`,
matching owlready2 list-valued object properties). -/
def getProp (i : Ind) (p : Str) : List Str :=
  (alookup p i.props).getD []

/-- Set the value list of one property. -/
def setProp (i : Ind) (p : Str) (vs : List Str) : Ind :=
  { i with props := insOver p vs i.props }

/-- Python `list.remove(x)` with the `ValueError` swallowed: drop the first
occurrence if present. -/
def removeFirst [DecidableEq α] (x : α) : List α → List α
  | [] => []
  | a :: as => if a = x then as else a :: removeFirst x as

/-- Section split of `execute_sparql_update`: walk the lines of the update
string, toggling `in_delete` / `in_insert` exactly as the handler does, and
collect the stripped lines of each section. -/
def parseSections (update : Str) : List Str × List Str :=
  go (splitCh '\n' update) false false [] []
where
  go : List Str → Bool → Bool → List Str → List Str → List Str × List Str
  | [], _, _, ds, is => (ds, is)
  | l :: ls, din, iin, ds, is =>
    let line := trimPy l
    if subIn (str "DELETE") (ucs line) then
      go ls true false ds is
    else if subIn (str "INSERT") (ucs line) then
      go ls false true ds is
    else if pfxB (str "\x7d") line then
      go ls false false ds is
    else if din ∧ line ≠ [] ∧ ¬ pfxB (str "\x7b") line then
      go ls din iin (ds ++ [line]) is
    else if iin ∧ line ≠ [] ∧ ¬ pfxB (str "\x7b") line then
      go ls din iin ds (is ++ [line])
    else
      go ls din iin ds is

/-- Trailing-dot strip applied to each triple line by the handler. -/
def stripDot (l : Str) : Str :=
  if (trimPy l).getLast? = some '.' then trimPy ((trimPy l).dropLast) else l

/-- Local name of a SPARQL term token: strip angle brackets / quotes, then
take the part after the last `#`. -/
def tokenLocal (extra : List Char) (t : Str) : Str :=
  afterLast '#' (stripSet extra t)

/-- Application of one DELETE triple line, mirroring the handler: parse at
least three whitespace tokens, resolve subject and object individuals, check
the property exists in the schema, and remove the first occurrence of the
object from the asserted values (missing values silently tolerated). -/
def applyDeleteLine (m : Model) (l : Str) : Model :=
  let parts := splitWs (stripDot l)
  match parts with
  | subjT :: predT :: objT :: _ =>
    let subj := tokenLocal ['<', '>'] subjT
    let prop := afterLast '#' (stripSet ['<', '>'] predT)
    let obj := tokenLocal ['<', '>', '"'] objT
    match searchOne m subj with
    | none => m
    | some i =>
      if m.propNames.contains prop then
        match searchOne m obj with
        | none => m
        | some oi => putInd m (setProp i prop (removeFirst oi.id (getProp i prop)))
      else m
  | _ => m

/-- Application of one INSERT triple line: append the object to the asserted
values when it is not already present. -/
def applyInsertLine (m : Model) (l : Str) : Model :=
  let parts := splitWs (stripDot l)
  match parts with
  | subjT :: predT :: objT :: _ =>
    let subj := tokenLocal ['<', '>'] subjT
    let prop := afterLast '#' (stripSet ['<', '>'] predT)
    let obj := tokenLocal ['<', '>', '"'] objT
    match searchOne m subj with
    | none => m
    | some i =>
      if m.propNames.contains prop then
        match searchOne m obj with
        | none => m
        | some oi =>
          let cur := getProp i prop
          if cur.contains oi.id then m
          else putInd m (setProp i prop (cur ++ [oi.id]))
      else m
  | _ => m

/-- Outcome of the endpoint as observed by the HTTP client. -/
inductive UpdResult where
  | success
  | httpError (code : Nat) (detail : Str)
deriving DecidableEq, Repr

/-- Embedding of the whole `/sparql/update` handler body: parse the two
sections, apply DELETE lines then INSERT lines to the asserted model, run
reasoning (external, adds no error here) and sync; `syncOk` tells whether
`sync_to_neo4j` reports success.  The handler raises a 500 only when the
sync fails; no shape check appears anywhere. -/
def executeSparqlUpdate (syncOk : Bool) (m : Model) (update : Str) :
    UpdResult × Model :=
  let (ds, is) := parseSections update
  let m1 := ds.foldl applyDeleteLine m
  let m2 := is.foldl applyInsertLine m1
  if syncOk then (UpdResult.success, m2)
  else (UpdResult.httpError 500 (str "Failed to sync to Neo4j"), m2)

/-- Formalisation of the shape named by the specification: a single
`DELETE { ground triples } INSERT { ground triples } WHERE { }` block.
This definition follows the words of the spec (not the code) and is used
to state the claim that everything outside the shape is rejected. -/
def isDeleteInsertWhereShape (update : Str) : Bool :=
  let ls := (splitCh '\n' update).map trimPy |>.filter (· ≠ [])
  match ls with
  | l0 :: rest =>
    pfxB (str "DELETE") l0 &&
    rest.any (fun l => pfxB (str "INSERT") l) &&
    rest.any (fun l => subIn (str "WHERE") l)
  | [] => false

end SparqlApi

namespace WorldTTL

/-!
Embedding of the versioned-TTL mutation pipeline of
`agent/nodes/world_update.py`: `save_incremental_update_to_ttl` (a
line-oriented rewrite of the `robotIsInSpace` statement) and
`extract_changes_with_rdflib` (RDF-level diff of the two files).

A TTL file is a list of lines.  The RDF view keeps prefixed tokens
(`:robot1`) as triple components; both files of a diff share the same
prefix declarations, so this abbreviation of IRIs is diff-invariant.
The parser covers the canonical Turtle subset emitted by the project
generators: a block header line `SUBJ PRED OBJ ;` followed by
continuation lines `PRED OBJ ;` (or terminated by `.`).
-/

open Util

/-- A ground RDF triple in prefixed-token form. -/
abbrev Triple := Str × Str × Str

/-- Tokens of a TTL line with a trailing `.` or `;` terminator removed. -/
def lineTokens (l : Str) : List Str :=
  let ts := splitWs l
  match ts.getLast? with
  | some t => if t = str "." ∨ t = str ";" then ts.dropLast else ts
  | none => ts

/-- One parsing step: triples contributed by a line and the subject in
effect afterwards. -/
def parseStep (cur : Option Str) (l : Str) : List Triple × Option Str :=
  match lineTokens l with
  | [s, p, o] => ([(s, p, o)], some s)
  | [p, o] =>
    match cur with
    | some s => ([(s, p, o)], cur)
    | none => ([], cur)
  | _ => ([], cur)

/-- Triples of a line list, threading the current subject. -/
def parseFrom (cur : Option Str) : List Str → List Triple
  | [] => []
  | l :: ls => (parseStep cur l).1 ++ parseFrom (parseStep cur l).2 ls

/-- Subject in effect after a line list. -/
def curAfter (cur : Option Str) : List Str → Option Str
  | [] => cur
  | l :: ls => curAfter (parseStep cur l).2 ls

/-- RDF triples of a TTL file. -/
def parseTTL (lines : List Str) : List Triple := parseFrom none lines

/-- RDF-level diff of `extract_changes_with_rdflib`:
`(added, removed) = (set(updated) - set(original), set(original) - set(updated))`,
here on first-occurrence-deduplicated triple lists. -/
def diffTriples (orig upd : List Str) : List Triple × List Triple :=
  ((dedupF (parseTTL upd)).filter (fun t => ¬ (parseTTL orig).contains t),
   (dedupF (parseTTL orig)).filter (fun t => ¬ (parseTTL upd).contains t))

/-- Primary scan of `save_incremental_update_to_ttl`: walk the lines
tracking `robot_block_start` (the `rdf:type` look-back inspects
`lines[max(0, i-1)]`, which at `i = 0` is the line itself) and return the
index of the first `robotIsInSpace` line containing the old location. -/
def primaryScan (robot fromLoc : Str) : List Str → Nat → Str → Option Nat → Option Nat
  | [], _, _, _ => none
  | l :: ls, i, prev, rbs =>
    match (if subIn (':' :: robot) l ∧
        (subIn (str "rdf:type") l ∨ subIn (str "rdf:type") prev)
      then some i else rbs) with
    | some rb =>
      if subIn (str ":robotIsInSpace") l then
        if subIn (':' :: fromLoc) l then some i
        else if subIn (str ";") l ∧ i > rb + 10 then
          primaryScan robot fromLoc ls (i + 1) l none
        else primaryScan robot fromLoc ls (i + 1) l (some rb)
      else primaryScan robot fromLoc ls (i + 1) l (some rb)
    | none => primaryScan robot fromLoc ls (i + 1) l none

/-- Fallback scan: index of the first line containing both
`:robotIsInSpace` and the old location token. -/
def fallbackScan (fromLoc : Str) : List Str → Option Nat
  | [] => none
  | l :: ls =>
    if subIn (str ":robotIsInSpace") l && subIn (':' :: fromLoc) l then some 0
    else (fallbackScan fromLoc ls).map (· + 1)

/-- Embedding of `save_incremental_update_to_ttl`: locate the line to
rewrite (primary scan, then fallback), replace every occurrence of
`:from` by `:to` on that line, and return the updated file; `none` when
no line qualifies (the Python function returns `False` and writes
nothing). -/
def saveIncrementalUpdateToTTL (robot fromLoc toLoc : Str) (lines : List Str) :
    Option (List Str) :=
  let idx :=
    match primaryScan robot fromLoc lines 0 ((lines.head?).getD []) none with
    | some i => some i
    | none => fallbackScan fromLoc lines
  match idx with
  | some i => some (lines.set i (repAll (':' :: fromLoc) (':' :: toLoc) ((lines.get? i).getD [])))
  | none => none

end WorldTTL

namespace SparqlGen

/-!
Embedding of `generate_sparql_update` and
`get_inferred_relationships_for_delete` of `agent/nodes/world_update.py`:
the construction of the DELETE set from the removed triples and the
relationship-mapping table.
-/

open Util

/-- rdflib term as consumed by the generator (datatype and language tags
of literals are irrelevant to the DELETE-set construction and elided). -/
inductive RTerm where
  | uri (s : Str)
  | lit (v : Str)
deriving DecidableEq, Repr

/-- Python `str(term)`. -/
def strTerm : RTerm → Str
  | .uri s => s
  | .lit v => v

/-- A removed/added triple as delivered by the rdflib diff. -/
abbrev RTriple := RTerm × RTerm × RTerm

/-- One entry of the relationship-mapping table. -/
structure MapEntry where
  relationship : Str
  kind : Str
deriving DecidableEq, Repr

/-- The `mappings` table: asserted predicate → inferred relationships. -/
abbrev RelMapping := List (Str × List MapEntry)

/-- The six asserted spatial predicates hard-coded in
`generate_sparql_update`. -/
def assertedPredicates : List Str :=
  [str "robotIsInSpace", str "artifactIsInSpace", str "isInsideOf",
   str "isOntopOf", str "carries", str "spaceIsInStorey"]

/-- Python `s.endswith(p)`. -/
def sfxB (p s : Str) : Bool := pfxB p.reverse s.reverse

/-- URI formation of `get_inferred_relationships_for_delete` for the
inferred predicate: names not starting with `http` are qualified as
`{namespace}#{name}` (the configured namespace already ends with `#`,
the source emits the second `#` verbatim). -/
def qualifyPred (ns name : Str) : Str :=
  if pfxB (str "http") name then name else ns ++ '#' :: name

/-- URI formation for subject/object local names. -/
def qualifyTerm (ns x : Str) : Str :=
  if pfxB (str "http") x then x
  else if pfxB (str ":") x then ns ++ x
  else ns ++ '#' :: x

/-- Embedding of `get_inferred_relationships_for_delete`. -/
def getInferredForDelete (asserted subject objct : Str) (mapping : RelMapping)
    (ns : Str) : List (Str × Str × Str) :=
  match alookup asserted mapping with
  | none => []
  | some entries =>
    entries.map (fun e =>
      let p := qualifyPred ns e.relationship
      let s := qualifyTerm ns subject
      let o := qualifyTerm ns objct
      if e.kind = str "inverse_inference" then (o, p, s) else (s, p, o))

/-- Predicate local-name extraction of `generate_sparql_update`. -/
def predLocal (p : Str) : Option Str :=
  if subIn (str "#") p then some (afterLast '#' p)
  else if sfxB (str "robotIsInSpace") p ∨ sfxB (str "artifactIsInSpace") p then
    some (if subIn (str "/") p then afterLast '/' p else p)
  else none

/-- Subject/object local-name extraction of `generate_sparql_update`. -/
def termLocal (s : Str) : Str :=
  if subIn (str "#") s then afterLast '#' s
  else if pfxB (str ":") s then s.drop 1
  else if subIn (str "/") s then afterLast '/' s
  else s

/-- Append a triple to the tracked DELETE set unless already present
(the `delete_triples_set` duplicate guard). -/
def addAbsent (t : Str × Str × Str) (seen : List (Str × Str × Str)) :
    List (Str × Str × Str) :=
  if seen.contains t then seen else seen ++ [t]

/-- First DELETE-building loop: all removed triples as raw strings. -/
def deleteSetPhase1 (removed : List RTriple) : List (Str × Str × Str) :=
  removed.foldl
    (fun acc t => addAbsent (strTerm t.1, strTerm t.2.1, strTerm t.2.2) acc) []

/-- Inferred triples contributed by one removed triple. -/
def inferredOf (ns : Str) (mapping : RelMapping) (t : RTriple) :
    List (Str × Str × Str) :=
  match predLocal (strTerm t.2.1) with
  | some pl =>
    if assertedPredicates.contains pl then
      getInferredForDelete pl (termLocal (strTerm t.1)) (termLocal (strTerm t.2.2))
        mapping ns
    else []
  | none => []

/-- The full DELETE set built by `generate_sparql_update`: the removed
triples, then — when a relationship mapping was loaded — the inferred
triples of each removed triple whose predicate is asserted. -/
def deleteSet (removed : List RTriple) (mapping : Option RelMapping) (ns : Str) :
    List (Str × Str × Str) :=
  let base := deleteSetPhase1 removed
  match mapping with
  | none => base
  | some mp =>
    removed.foldl
      (fun acc t => (inferredOf ns mp t).foldl (fun a it => addAbsent it a) acc)
      base

end SparqlGen

namespace Onto

/-!
Embedding of the asserted-model mutation operations of
`ontology_server/core/ontology.py`: `add_individual`,
`update_individual`, `add_individuals_batch`, the two property-setting
helpers, and the projection half of `sync_to_neo4j`.

The reasoner is external: it appears as a function `infer` giving, per
individual and object property, the `INDIRECT_` (reasoned) value list
that `sync_to_neo4j` reads.  Python-level operations that cannot raise
on the modelled data are total functions, so the only error returns of
the mutation operations are their explicit precondition checks.
-/

open Util

/-- An individual of the asserted model. -/
structure OInd where
  id : Str
  classNames : List Str
  dataProps : List (Str × Str)
  objProps : List (Str × List Str)
deriving DecidableEq, Repr

/-- The asserted model: the owlready2 world restricted to what the
operations touch. -/
structure OState where
  inds : List OInd
deriving DecidableEq, Repr

/-- Python `self.ontology.search_one(iri=f"*{x}")`. -/
def searchOne (st : OState) (x : Str) : Option OInd :=
  st.inds.find? (fun i => i.id == x)

/-- Replace the individual with the given id. -/
def putInd (st : OState) (i : OInd) : OState :=
  { st with inds := st.inds.map (fun j => if j.id == i.id then i else j) }

/-- Request payload for creating or updating an individual. -/
structure IndData where
  id : Str
  className : Str
  dataProps : List (Str × Str)
  objProps : List (Str × List Str)
deriving DecidableEq, Repr

/-- Status dictionary returned by the mutation operations. -/
structure OpResult where
  ok : Bool
  message : Str
deriving DecidableEq, Repr

/-- Embedding of `_set_data_properties`: `setattr` per pair. -/
def setDataProps (i : OInd) (ps : List (Str × Str)) : OInd :=
  ps.foldl (fun j kv => { j with dataProps := insOver kv.1 kv.2 j.dataProps }) i

/-- Embedding of `_set_object_properties`: resolve each target id
against the model, silently dropping unresolved targets; assign the
property only when at least one target resolved. -/
def setObjProps (st : OState) (i : OInd) (ps : List (Str × List Str)) : OInd :=
  ps.foldl
    (fun j kv =>
      let targets := kv.2.filter (fun t => (searchOne st t).isSome)
      if targets ≠ [] then { j with objProps := insOver kv.1 targets j.objProps }
      else j)
    i

/-- Embedding of `add_individual` (asserted-model effect; the trailing
`sync_to_neo4j` call does not touch the asserted model and its result is
discarded by the source). -/
def addIndividual (schema : List Str) (st : OState) (d : IndData) :
    OpResult × OState :=
  if ¬ schema.contains d.className then
    (⟨false, str "Class not found"⟩, st)
  else if (searchOne st d.id).isSome then
    (⟨false, str "already exists"⟩, st)
  else
    let i0 : OInd := ⟨d.id, [d.className], [], []⟩
    let st1 : OState := ⟨st.inds ++ [i0]⟩
    let i1 := setDataProps i0 d.dataProps
    let i2 := setObjProps st1 i1 d.objProps
    (⟨true, []⟩, putInd st1 i2)

/-- Embedding of `update_individual`. -/
def updateIndividual (st : OState) (x : Str) (dataPs : List (Str × Str))
    (objPs : List (Str × List Str)) : OpResult × OState :=
  match searchOne st x with
  | none => (⟨false, str "not found"⟩, st)
  | some i =>
    let i1 := setDataProps i dataPs
    let i2 := setObjProps st i1 objPs
    (⟨true, []⟩, putInd st i2)

/-- Embedding of pass 1 of `add_individuals_batch`: create each
individual bare, counting failures (existing id, unknown class). -/
def batchPass1 (schema : List Str) : OState → List IndData → OState × Nat × Nat
  | st, [] => (st, 0, 0)
  | st, d :: ds =>
    if (searchOne st d.id).isSome then
      let (st2, a, f) := batchPass1 schema st ds
      (st2, a, f + 1)
    else if ¬ schema.contains d.className then
      let (st2, a, f) := batchPass1 schema st ds
      (st2, a, f + 1)
    else
      let (st2, a, f) := batchPass1 schema (⟨st.inds ++ [⟨d.id, [d.className], [], []⟩]⟩) ds
      (st2, a + 1, f)

/-- Embedding of pass 2 of `add_individuals_batch`: attach properties to
every payload whose id now resolves. -/
def batchPass2 : OState → List IndData → OState
  | st, [] => st
  | st, d :: ds =>
    match searchOne st d.id with
    | none => batchPass2 st ds
    | some i =>
      let i1 := setDataProps i d.dataProps
      let i2 := setObjProps st i1 d.objProps
      batchPass2 (putInd st i2) ds

/-- Batch outcome: status with per-item counts. -/
structure BatchResult where
  ok : Bool
  added : Nat
  failed : Nat
deriving DecidableEq, Repr

/-- Embedding of `add_individuals_batch`. -/
def addIndividualsBatch (schema : List Str) (st : OState) (ds : List IndData) :
    BatchResult × OState :=
  let (st1, a, f) := batchPass1 schema st ds
  let st2 := batchPass2 st1 ds
  (⟨true, a, f⟩, st2)

/-- Reasoner interface: per individual id and object-property name, the
`INDIRECT_` value list read by the projection pass of `sync_to_neo4j`.
A reasoner only adds entailments, so its output contains every asserted
value; the projection logic itself never inspects this. -/
abbrev Reasoner := OState → Str → Str → List Str

/-- Asserted values of a property. -/
def assertedVals (st : OState) (x p : Str) : List Str :=
  match searchOne st x with
  | some i => (alookup p i.objProps).getD []
  | none => []

/-- The trivial reasoner: no axioms, `INDIRECT_` values coincide with the
asserted values. -/
def flatReasoner : Reasoner := assertedVals

/-- Monotonicity of a reasoner over the asserted model. -/
def ReasonerSound (infer : Reasoner) : Prop :=
  ∀ st x p v, v ∈ assertedVals st x p → v ∈ infer st x p

/-- Relationship batch of `sync_to_neo4j`: one edge per individual, per
schema object property, per `INDIRECT_` value naming an existing
individual (`MERGE` deduplicates). -/
def syncEdges (infer : Reasoner) (st : OState) (propNames : List Str) :
    List (Str × Str × Str) :=
  st.inds.foldl
    (fun acc i =>
      propNames.foldl
        (fun acc2 p =>
          (infer st i.id p).foldl
            (fun acc3 v =>
              if (searchOne st v).isSome then SparqlGen.addAbsent (i.id, p, v) acc3
              else acc3)
            acc2)
        acc)
    []

/-- Outgoing edges of one node under one relationship label. -/
def outEdges (edges : List (Str × Str × Str)) (x p : Str) : List (Str × Str × Str) :=
  edges.filter (fun e => e.1 = x ∧ e.2.1 = p)

end Onto

namespace EmbedCache

/-!
Embedding of `load_embeddings_from_file` of
`ontology_server/core/embedding.py` (the `generate=false` path of the
embedding binder), together with the configured model/dimensions it is
claimed to validate against.
-/

open Util

/-- Metadata block of a cache file. -/
structure Meta where
  descriptionModel : Str
  descriptionDimensions : Nat
deriving DecidableEq, Repr

/-- One cached embedding entry (`none` models a JSON `null` embedding). -/
structure EmbItem where
  id : Str
  descriptionEmbedding : Option (List Int)
deriving DecidableEq, Repr

/-- Parsed content of the cache file: the new format with metadata, the
legacy bare array, or anything else (which raises `ValueError`). -/
inductive CacheData where
  | newFmt (meta : Meta) (embeddings : List EmbItem)
  | legacy (embeddings : List EmbItem)
  | invalid
deriving DecidableEq, Repr

/-- Configured embedding parameters of the `EmbeddingManager`. -/
structure EmbConfig where
  descriptionModel : Str
  descriptionDimensions : Nat
deriving DecidableEq, Repr

/-- Errors raised by the loader. -/
inductive LoadErr where
  | fileNotFound
  | valueError
deriving DecidableEq, Repr

/-- Embedding of `load_embeddings_from_file`: the file content is
`none` when the path does not exist; `proj` lists the node ids present
in the projection (the `MATCH (n:Individual {id: $id})` targets).
Returns the number of embeddings stored.  The configured parameters are
accepted as an argument to show they are never consulted. -/
def loadEmbeddingsFromFile (cfg : EmbConfig) (file : Option CacheData)
    (proj : List Str) : Except LoadErr Nat :=
  match file with
  | none => .error .fileNotFound
  | some .invalid => .error .valueError
  | some (.newFmt _ items) => .ok (storeCount items proj)
  | some (.legacy items) => .ok (storeCount items proj)
where
  /-- Count of items with a non-null embedding whose id matches a node. -/
  storeCount (items : List EmbItem) (proj : List Str) : Nat :=
    (items.filter (fun it => it.descriptionEmbedding.isSome ∧ proj.contains it.id)).length

end EmbedCache

namespace PGraphM

/-!
Embedding of the Neo4j projection state and the write operations issued
by `sync_to_neo4j` of `ontology_server/core/ontology.py`, for the frame
property of the schema projection created by `_initialize_neo4j_schema`.
-/

open Util

/-- A property-graph node: Neo4j identity key, `id` property, labels and
scalar properties. -/
structure PNode where
  key : Nat
  id : Str
  labels : List Str
  props : List (Str × Str)
deriving DecidableEq, Repr

/-- A relationship: source key, type name, target key. -/
abbrev PEdge := Nat × Str × Nat

/-- The projection graph. -/
structure PGr where
  nodes : List PNode
  edges : List PEdge
deriving DecidableEq, Repr

/-- Node carrying the `Individual` label. -/
def isIndiv (n : PNode) : Bool := n.labels.contains (str "Individual")

/-- Embedding of `MATCH (i:Individual) DETACH DELETE i`. -/
def detachDeleteIndividuals (g : PGr) : PGr :=
  let keep := g.nodes.filter (fun n => ¬ isIndiv n)
  let keptKeys := keep.map (·.key)
  ⟨keep, g.edges.filter (fun e => keptKeys.contains e.1 ∧ keptKeys.contains e.2.2)⟩

/-- Fresh node key. -/
def freshKey (g : PGr) : Nat := (g.nodes.map (·.key)).foldl max 0 + 1

/-- Embedding of `MERGE (i:L1:...:Ln {id: x})`: reuse a node carrying all
the requested labels and the id, else create one. -/
def mergeNode (g : PGr) (labels : List Str) (x : Str) : PGr :=
  if g.nodes.any (fun n => n.id == x ∧ labels.all (n.labels.contains ·)) then g
  else { g with nodes := g.nodes ++ [⟨freshKey g, x, labels, []⟩] }

/-- Embedding of `MATCH (i:L {id: x}) SET i[k] = v` (applied to every
matching node). -/
def setPropOn (g : PGr) (label : Str) (x k v : Str) : PGr :=
  { g with nodes := g.nodes.map (fun n =>
      if n.labels.contains label ∧ n.id == x then
        { n with props := insOver k v n.props }
      else n) }

/-- Embedding of `MATCH (a:La {id:xa}), (b:Lb {id:xb}) MERGE (a)-[:R]->(b)`:
add the edge for every matching endpoint pair unless present. -/
def mergeEdgesBetween (g : PGr) (la : Str) (xa : Str) (rel : Str) (lb : Str)
    (xb : Str) : PGr :=
  let srcs := (g.nodes.filter (fun n => n.labels.contains la ∧ n.id == xa)).map (·.key)
  let tgts := (g.nodes.filter (fun n => n.labels.contains lb ∧ n.id == xb)).map (·.key)
  { g with edges :=
      srcs.foldl (fun es s =>
        tgts.foldl (fun es2 t =>
          if es2.contains (s, rel, t) then es2 else es2 ++ [(s, rel, t)]) es) g.edges }

/-- One reasoned individual as consumed by the projection pass:
id, class labels (via `INDIRECT_is_a`), data properties, and per
object property the `INDIRECT_` target-id list. -/
structure ProjInd where
  id : Str
  classLabels : List Str
  dataProps : List (Str × Str)
  rels : List (Str × List Str)
deriving DecidableEq, Repr

/-- Batch 1 body for one individual: node merge, `INSTANCE_OF` links,
data-property writes. -/
def projectNode (g : PGr) (i : ProjInd) : PGr :=
  let g1 := mergeNode g (str "Individual" :: i.classLabels) i.id
  let g2 := i.classLabels.foldl
    (fun h c => mergeEdgesBetween h (str "Individual") i.id (str "INSTANCE_OF") (str "Class") c) g1
  i.dataProps.foldl (fun h kv => setPropOn h (str "Individual") i.id kv.1 kv.2) g2

/-- Batch 2 body for one individual: one `MERGE` per reasoned
relationship value. -/
def projectEdges (g : PGr) (i : ProjInd) : PGr :=
  i.rels.foldl
    (fun h pr =>
      pr.2.foldl
        (fun h2 v => mergeEdgesBetween h2 (str "Individual") i.id pr.1 (str "Individual") v)
        h)
    g

/-- Embedding of the description-embedding write
(`MATCH (n:Individual {id: $id}) SET n.description_embedding = ...`). -/
def writeEmbedding (g : PGr) (x : Str) (v : Str) : PGr :=
  setPropOn g (str "Individual") x (str "description_embedding") v

/-- Embedding of the projection phase of `sync_to_neo4j`: clear all
`Individual` nodes, recreate nodes (batch 1), recreate relationships
(batch 2), then attach embeddings. -/
def syncProjection (g : PGr) (inds : List ProjInd) (embs : List (Str × Str)) : PGr :=
  let g0 := detachDeleteIndividuals g
  let g1 := inds.foldl projectNode g0
  let g2 := inds.foldl projectEdges g1
  embs.foldl (fun h kv => writeEmbedding h kv.1 kv.2) g2

/-- The schema part of the projection: nodes not labeled `Individual`. -/
def schemaNodes (g : PGr) : List PNode := g.nodes.filter (fun n => ¬ isIndiv n)

/-- Schema-internal edges: both endpoints are non-`Individual` nodes. -/
def schemaEdges (g : PGr) : List PEdge :=
  let ks := (schemaNodes g).map (·.key)
  g.edges.filter (fun e => ks.contains e.1 ∧ ks.contains e.2.2)

end PGraphM

namespace TTLLoad

/-!
Embedding of `load_instances_from_ttl` of
`ontology_server/core/ontology.py`: fold the rdflib triples of the file
into `IndividualData` payloads and delegate to `add_individuals_batch`.
-/

open Util

/-- An rdflib object term of the parsed file. -/
inductive RObj where
  | iri (s : Str)
  | lit (v : Str)
deriving DecidableEq, Repr

/-- Python `str(obj)`. -/
def objStr : RObj → Str
  | .iri s => s
  | .lit v => v

/-- A parsed triple: subject IRI, predicate IRI, object. -/
structure TTr where
  subj : Str
  pred : Str
  obj : RObj
deriving DecidableEq, Repr

/-- The `rdf:type` predicate IRI. -/
def rdfTypeU : Str := str "http://www.w3.org/1999/02/22-rdf-syntax-ns#type"

/-- Subjects carrying an `rdf:type` triple, in first-occurrence order
(model of `set(g.subjects(RDF.type, None))`). -/
def typedSubjects (g : List TTr) : List Str :=
  dedupF ((g.filter (fun t => t.pred = rdfTypeU)).map (·.subj))

/-- Type objects of a subject, excluding the ontology declaration. -/
def typesOf (g : List TTr) (s : Str) : List RObj :=
  ((g.filter (fun t => t.subj = s ∧ t.pred = rdfTypeU)).map (·.obj)).filter
    (fun o => ¬ subIn (str "Ontology") (objStr o))

/-- Data-property dictionary of a subject (later triples overwrite
earlier ones, as in the Python dict assignment). -/
def dataPropsOf (g : List TTr) (s : Str) : List (Str × Str) :=
  (g.filter (fun t => t.subj = s ∧ t.pred ≠ rdfTypeU)).foldl
    (fun acc t =>
      match t.obj with
      | .lit v => insOver (afterLast '#' t.pred) v acc
      | .iri _ => acc)
    []

/-- Object-property dictionary of a subject (per-predicate value lists,
appended in triple order). -/
def objPropsOf (g : List TTr) (s : Str) : List (Str × List Str) :=
  (g.filter (fun t => t.subj = s ∧ t.pred ≠ rdfTypeU)).foldl
    (fun acc t =>
      match t.obj with
      | .iri u =>
        let pl := afterLast '#' t.pred
        match alookup pl acc with
        | some vs => insOver pl (vs ++ [afterLast '#' u]) acc
        | none => acc ++ [(pl, [afterLast '#' u])]
      | .lit _ => acc)
    []

/-- Payload contributed by one typed subject: skipped (`none`) for
ontology subjects, empty local names, and subjects with no remaining
type; otherwise built with the first listed type as creation class. -/
def extractOne (g : List TTr) (s : Str) : Option Onto.IndData :=
  let sid := afterLast '#' s
  if subIn (str "Ontology") s ∨ sid = [] then none
  else
    match typesOf g s with
    | [] => none
    | ty :: _ => some ⟨sid, afterLast '#' (objStr ty), dataPropsOf g s, objPropsOf g s⟩

/-- Individual payloads extracted from the parsed file: subjects with no
type (after excluding the ontology declaration), ontology subjects, and
empty local names are skipped; the creation class is the first listed
type. -/
def extractIndividuals (g : List TTr) : List Onto.IndData :=
  (typedSubjects g).filterMap (extractOne g)

/-- Embedding of `load_instances_from_ttl` on an already-parsed file. -/
def loadInstancesFromTTL (schema : List Str) (st : Onto.OState) (g : List TTr) :
    Onto.BatchResult × Onto.OState :=
  Onto.addIndividualsBatch schema st (extractIndividuals g)

end TTLLoad

namespace PathGen

/-!
Embedding of `get_locations_with_paths` and the distance-merging part of
`get_topology` of `pddl/scripts/pddl_generator.py`.

The projection subgraph is a finite labelled graph; the Neo4j
`shortestPath` call is an external function `sp`, constrained in the
theorems by the specification of the Cypher query: a returned path is a
`hasPathTo` chain between the requested endpoints whose hop count is
minimal (`*1..50` paths between distinct endpoints).
-/

open Util

/-- The projection restricted to what the queries read: node ids, the
ids labeled `Space`, `Door`, `Stairs` or `Opening`, and the directed
`hasPathTo` relationships. -/
structure Graph where
  nodes : List Str
  locs : List Str
  edges : List (Str × Str)
deriving DecidableEq, Repr

/-- Undirected `hasPathTo` adjacency (the Cypher patterns are
undirected). -/
def adjB (g : Graph) (a b : Str) : Bool :=
  g.edges.contains (a, b) || g.edges.contains (b, a)

/-- Neighbours of a node. -/
def nbrs (g : Graph) (a : Str) : List Str :=
  (g.edges.filterMap (fun e => if e.1 = a then some e.2 else none)) ++
  (g.edges.filterMap (fun e => if e.2 = a then some e.1 else none))

/-- Bounded reachability: a `hasPathTo` walk of at most `n` hops. -/
def distLe (g : Graph) : Nat → Str → Str → Bool
  | 0, u, v => u == v
  | n + 1, u, v => u == v || (nbrs g u).any (fun w => distLe g n w v)

/-- A node list is a `hasPathTo` chain. -/
def chainB (g : Graph) : List Str → Bool
  | [] => false
  | [_] => true
  | a :: b :: r => adjB g a b && chainB g (b :: r)

/-- The shortest-path hop count between two nodes is `d`. -/
def ShortestHops (g : Graph) (u v : Str) (d : Nat) : Prop :=
  distLe g d u v = true ∧ ∀ e < d, distLe g e u v = false

/-- Specification of the Neo4j `shortestPath` result consumed by the
generator: any returned node list is a chain between the endpoints whose
hop count is the shortest-path distance. -/
def SpSpec (g : Graph) (sp : Str → Str → Option (List Str)) : Prop :=
  ∀ u v p, sp u v = some p →
    chainB g p = true ∧ p.head? = some u ∧ p.getLast? = some v ∧
    ShortestHops g u v (p.length - 1)

/-- Unordered pair enumeration over the sorted location list
(`for i, loc1 ...: for loc2 in location_list[i+1:]`). -/
def pairsOf : List Str → List (Str × Str)
  | [] => []
  | a :: rest => rest.map (fun b => (a, b)) ++ pairsOf rest

/-- Add the nodes of a path to the accumulated location set
(`all_locations.update(path_nodes)`). -/
def addLocs (ls : List Str) (p : List Str) : List Str :=
  p.foldl (fun acc x => if acc.contains x then acc else acc ++ [x]) ls

/-- Index pairs `i < j` of a path, in enumeration order. -/
def idxPairs (n : Nat) : List (Nat × Nat) :=
  (List.range n).foldl (fun acc i =>
    acc ++ ((List.range n).filterMap (fun j => if i < j then some (i, j) else none))) []

/-- Distance table: association list over ordered node pairs. -/
abbrev DistTab := List ((Str × Str) × Nat)

/-- Every entry of a distance table is the exact shortest-path hop
count of its key pair. -/
def SoundTab (g : Graph) (tab : DistTab) : Prop :=
  ∀ u v d, alookup (u, v) tab = some d → ShortestHops g u v d

/-- Subpath-distance harvesting for one returned path: every index pair
`(i, j)` contributes `j - i` for both orientations unless the pair is
already recorded. -/
def recordSubpaths (p : List Str) (dists : DistTab) : DistTab :=
  (idxPairs p.length).foldl
    (fun acc ij =>
      let n1 := (p.get? ij.1).getD []
      let n2 := (p.get? ij.2).getD []
      let d := ij.2 - ij.1
      insAbsent (n2, n1) d (insAbsent (n1, n2) d acc))
    dists

/-- Row handling for one queried pair: the `MATCH` requires both
endpoints to exist with a location label; a found path records the full
distance (overwrite) and all subpath distances (insert-if-absent), and a
pathless but directly connected pair records distance 1. -/
def processPair (g : Graph) (sp : Str → Str → Option (List Str))
    (st : List Str × DistTab) (pr : Str × Str) : List Str × DistTab :=
  if g.nodes.contains pr.1 ∧ g.nodes.contains pr.2 ∧
     g.locs.contains pr.1 ∧ g.locs.contains pr.2 then
    match sp pr.1 pr.2 with
    | some p =>
      (addLocs st.1 p,
       recordSubpaths p (insOver (pr.2, pr.1) (p.length - 1)
         (insOver (pr.1, pr.2) (p.length - 1) st.2)))
    | none =>
      if adjB g pr.1 pr.2 then
        (st.1, insOver (pr.2, pr.1) 1 (insOver (pr.1, pr.2) 1 st.2))
      else st
  else st

/-- Embedding of `get_locations_with_paths` (no artifact pairs): the
deduplicated input is sorted, all unordered pairs are queried, and the
location universe together with the harvested distance table is
returned. -/
def getLocationsWithPaths (g : Graph) (sp : Str → Str → Option (List Str))
    (locationIds : List Str) : List Str × DistTab :=
  let all0 := dedupF locationIds
  if locationIds.length < 2 then (all0, [])
  else
    let locationList := sortStr all0
    (pairsOf locationList).foldl (processPair g sp) (all0, [])

/-- Directed `hasPathTo` connections inside the universe
(`a.id IN $all_locs AND b.id IN $all_locs AND a.id <> b.id`), deduplicated
per unordered pair in row order. -/
def topoConnections (g : Graph) (univ : List Str) : List (Str × Str) :=
  (g.edges.filter (fun e =>
      univ.contains e.1 ∧ univ.contains e.2 ∧ e.1 ≠ e.2)).foldl
    (fun acc e =>
      if acc.contains e ∨ acc.contains (e.2, e.1) then acc else acc ++ [e])
    []

/-- Distance merging of `get_topology`: precomputed distances first, then
distance 1 for each direct connection when absent. -/
def topologyDistances (g : Graph) (univ : List Str) (pre : DistTab) : DistTab :=
  (topoConnections g univ).foldl
    (fun acc c => insAbsent (c.2, c.1) 1 (insAbsent c 1 acc))
    pre

end PathGen

namespace GoalNorm

/-!
Embedding of `normalize_goal_formula` of `agent/tools/pddl_plan.py`.

Each `re.sub` call rewrites patterns of the fixed shape
`\(NAME\s+(\w+)\s+(\w+)?\)` with the `IGNORECASE` flag; the scanner
below reproduces `re.sub` for exactly this shape (leftmost,
non-overlapping matches; the character classes of the pattern are
disjoint, so greedy matching needs no backtracking).  `fix_not_syntax`
is translated index-step by index-step.
-/

open Util

/-- Python regex `\w` on the ASCII inputs of the tool. -/
def isWordCh (c : Char) : Bool := c.isAlphanum || c == '_'

/-- Python regex `\s` (ASCII). -/
def isRegSpace (c : Char) : Bool := isPySpace c

/-- Case-insensitive literal match: consume `name` (given lowercase)
from the input, returning the remainder. -/
def matchCI : Str → Str → Option Str
  | [], s => some s
  | _ :: _, [] => none
  | p :: ps, c :: cs => if c.toLower == p then matchCI ps cs else none

/-- Consume a nonempty maximal run of characters satisfying `f`. -/
def takeRun (f : Char → Bool) (s : Str) : Option (Str × Str) :=
  let w := s.takeWhile f
  if w = [] then none else some (w, s.dropWhile f)

/-- Match the tail of one pattern occurrence after the opening `(`:
the name (case-insensitively), whitespace, one or two word arguments,
and the closing `)`; returns the arguments and the rest of the input. -/
def matchPredTail (nameL : Str) (two : Bool) (s : Str) :
    Option (Str × Option Str × Str) := do
  let r1 ← matchCI nameL s
  let (_, r2) ← takeRun isRegSpace r1
  let (a1, r3) ← takeRun isWordCh r2
  if two then
    let (_, r4) ← takeRun isRegSpace r3
    let (a2, r5) ← takeRun isWordCh r4
    match r5 with
    | ')' :: rest => some (a1, some a2, rest)
    | _ => none
  else
    match r3 with
    | ')' :: rest => some (a1, none, rest)
    | _ => none

/-- Length of the input consumed by a match (for termination). -/
def tailLen : Str → Nat := List.length

/-- One `re.sub` pass: scan left to right, replacing each occurrence of
`\(nameL ...\)` by `build arg1 arg2`. -/
def scanRw (nameL : Str) (two : Bool) (build : Str → Option Str → Str) :
    Nat → Str → Str
  | 0, s => s
  | _ + 1, [] => []
  | fuel + 1, c :: cs =>
    if c == '(' then
      match matchPredTail nameL two cs with
      | some (a1, a2, rest) => build a1 a2 ++ scanRw nameL two build fuel rest
      | none => c :: scanRw nameL two build fuel cs
    else c :: scanRw nameL two build fuel cs

/-- Canonical replacement builder `({pred} {arg1}[ {arg2}])`. -/
def canonB (pred : String) (a1 : Str) (a2 : Option Str) : Str :=
  '(' :: str pred ++ ' ' :: a1 ++ (match a2 with | some a => ' ' :: a | none => []) ++ [')']

/-- Replacement builder of `replace_isclosed`. -/
def closedB (a1 : Str) (_ : Option Str) : Str :=
  str "(not (isOpen " ++ a1 ++ str "))"

/-- The predicate-mapping table of `normalize_goal_formula`, in source
order: lowercase pattern name, arity flag, replacement builder. -/
def stages : List (Str × Bool × (Str → Option Str → Str)) :=
  [(str "isinspace", true, canonB "artifactIsInSpace"),
   (str "isontopof", true, canonB "isOntopOf"),
   (str "isontop", false, canonB "isON"),
   (str "ison", false, canonB "isON"),
   (str "isopen", false, canonB "isOpen"),
   (str "isheldby", true, canonB "isHeldBy"),
   (str "isinsideof", true, canonB "isInsideOf"),
   (str "isontopof", true, canonB "isOntopOf"),
   (str "robotisinspace", true, canonB "robotIsInSpace"),
   (str "artifactisonfloorof", true, canonB "artifactIsOnFloorOf"),
   (str "artifactisinspace", true, canonB "artifactIsInSpace"),
   (str "isadjacentto", true, canonB "isAdjacentTo"),
   (str "islocked", false, canonB "isLocked"),
   (str "isopendoor", false, canonB "isOpenDoor"),
   (str "isclosed", false, closedB)]

/-- Scan of the inner depth loop of `fix_not_syntax`: split the input at
the point where the running parenthesis depth (starting at 1) returns to
0, returning the consumed part (ending with the closing `)`) and the
rest; `none` when the depth never closes. -/
def findClose : Nat → Str → Option (Str × Str)
  | _, [] => none
  | depth, c :: cs =>
    if c == '(' then
      match findClose (depth + 1) cs with
      | some (k, r) => some (c :: k, r)
      | none => none
    else if c == ')' then
      if depth = 1 then some ([c], cs)
      else
        match findClose (depth - 1) cs with
        | some (k, r) => some (c :: k, r)
        | none => none
    else
      match findClose depth cs with
      | some (k, r) => some (c :: k, r)
      | none => none

/-- Embedding of `fix_not_syntax`: wrap each `not (...)` whose previous
character in the original text is not `(`; on a successful wrap the scan
resumes after the consumed region with the region's last character as
look-back. -/
def fixNotGo : Nat → Option Char → Str → Str
  | 0, _, s => s
  | _ + 1, _, [] => []
  | fuel + 1, prev, s =>
    match s with
    | 'n' :: 'o' :: 't' :: ' ' :: '(' :: rest =>
      if prev ≠ some '(' then
        match findClose 1 rest with
        | some (inner, r2) =>
          str "(not " ++ '(' :: inner ++ ')' :: fixNotGo fuel (some ')') r2
        | none => 'n' :: fixNotGo fuel (some 'n') ('o' :: 't' :: ' ' :: '(' :: rest)
      else 'n' :: fixNotGo fuel (some 'n') ('o' :: 't' :: ' ' :: '(' :: rest)
    | c :: cs => c :: fixNotGo fuel (some c) cs
    | [] => []

/-- Top-level `fix_not_syntax`. -/
def fixNotWrap (s : Str) : Str := fixNotGo s.length none s

/-- Embedding of `normalize_goal_formula` on character lists. -/
def normalizeChars (s : Str) : Str :=
  fixNotWrap (stages.foldl (fun t st => scanRw st.1 st.2.1 st.2.2 t.length t) s)

/-- Embedding of `normalize_goal_formula`. -/
def normalizeGoalFormula (s : String) : String :=
  String.mk (normalizeChars (str s))

end GoalNorm

namespace Instances

/-!
Concrete instances used by the counterexamples and witnesses: a small
asserted model, a canonical dynamic-TTL file, a six-node `hasPathTo`
graph with a concrete shortest-path oracle, and representative goal
formulas.
-/

open Util

/-- Asserted-model fragment with a robot and two spaces. -/
def exModel : SparqlApi.Model :=
  { inds := [⟨str "robot1", [(str "robotIsInSpace", [str "corridor_14"])]⟩,
             ⟨str "corridor_14", []⟩,
             ⟨str "door_9", []⟩],
    propNames := [str "robotIsInSpace"] }

/-- Ontology state with a robot and two spaces. -/
def exOState : Onto.OState :=
  ⟨[⟨str "robot1", [str "Robot"], [], [(str "robotIsInSpace", [str "corridor_14"])]⟩,
    ⟨str "corridor_14", [str "Space"], [], []⟩,
    ⟨str "kitchen_13", [str "Space"], [], []⟩]⟩

/-- Canonical dynamic-TTL robot block as emitted by the environment
generators. -/
def exTTL : List Str :=
  [str ":robot1 rdf:type :Robot ;",
   str "    :robotIsInSpace :corridor_14 ;",
   str "    :hasHand :left_hand ;",
   str "    :hasHand :right_hand .",
   str ":left_hand rdf:type :Hand .",
   str ":right_hand rdf:type :Hand ."]

/-- Relationship-mapping table naming the inferred companions of
`robotIsInSpace` (shape of `action/relationship_mapping.json`). -/
def exMapping : SparqlGen.RelMapping :=
  [(str "robotIsInSpace",
    [⟨str "objectIsInSpace", str "subproperty"⟩,
     ⟨str "spaceHasObject", str "inverse_inference"⟩,
     ⟨str "isInSpace", str "property_chain"⟩])]

/-- The configured ontology namespace (ends with `#`). -/
def exNs : Str :=
  str "http://www.semanticweb.org/namh_woo/ontologies/2025/9/untitled-ontology-10#"

/-- Six-location `hasPathTo` graph: three query endpoints `a`, `b`, `c`
pairwise connected through private middle nodes `x`, `y`, `z`. -/
def exGraph : PathGen.Graph :=
  { nodes := [str "a", str "b", str "c", str "x", str "y", str "z"],
    locs := [str "a", str "b", str "c", str "x", str "y", str "z"],
    edges := [(str "a", str "x"), (str "x", str "b"),
              (str "a", str "y"), (str "y", str "c"),
              (str "b", str "z"), (str "z", str "c")] }

/-- Shortest-path oracle for `exGraph` on the three queried pairs (each
returned path is the unique shortest one). -/
def exSp (u v : Str) : Option (List Str) :=
  if u = str "a" ∧ v = str "b" then some [str "a", str "x", str "b"]
  else if u = str "a" ∧ v = str "c" then some [str "a", str "y", str "c"]
  else if u = str "b" ∧ v = str "c" then some [str "b", str "z", str "c"]
  else none

/-- Representative canonical goal formulas (normalizer outputs and
already-wrapped negations). -/
def canonicalGoalExamples : List String :=
  ["(and (isON tv_52) (robotIsInSpace robot1 living_room_23))",
   "(artifactIsInSpace cup_1 kitchen_13)",
   "(not (isOpen box_2))",
   "(and (isHeldBy cup_1 left_hand) (not (isOpen door_9)))",
   "(and (isLocked safe_1) (isAdjacentTo robot1 door_9))",
   "(isOntopOf book_3 table_7)",
   "(isInsideOf key_2 cabinet_5)",
   "(and (isOpenDoor door_9) (artifactIsOnFloorOf tv_52 living_room_23))",
   "(isON tv_52)",
   "(and (not (isOpen cabinet_5)) (artifactIsInSpace cup_1 kitchen_13))"]

/-- Embedding-cache metadata disagreeing with the configured values. -/
def exMeta : EmbedCache.Meta :=
  ⟨str "text-embedding-3-large", 1536⟩

/-- Configured embedding parameters. -/
def exCfg : EmbedCache.EmbConfig :=
  ⟨str "text-embedding-3-small", 512⟩

/-- One cached embedding entry. -/
def exItems : List EmbedCache.EmbItem :=
  [⟨str "tv_52", some [1, 2, 3]⟩]

/-- Projection graph holding only the schema part: two classes with a
`SUBCLASS_OF` edge, one property with `HAS_DOMAIN` and `HAS_RANGE`. -/
def exSchemaGraph : PGraphM.PGr :=
  { nodes := [⟨1, str "Space", [str "Class"], []⟩,
              ⟨2, str "Location", [str "Class"], []⟩,
              ⟨3, str "robotIsInSpace", [str "Property"], []⟩],
    edges := [(1, str "SUBCLASS_OF", 2),
              (3, str "HAS_DOMAIN", 2),
              (3, str "HAS_RANGE", 1)] }

/-- Reasoned individuals to project. -/
def exProjInds : List PGraphM.ProjInd :=
  [⟨str "robot1", [str "Robot"], [], [(str "robotIsInSpace", [str "corridor_14"])]⟩,
   ⟨str "corridor_14", [str "Space"], [(str "category", str "corridor")], []⟩]

/-- Parsed TTL file for the ingest claims: one typed artifact, one
untyped subject `floor_1` that only appears as a property target and in
one outgoing property triple of its own. -/
def exTrips : List TTLLoad.TTr :=
  [⟨str "http://o#cup_1", TTLLoad.rdfTypeU, .iri (str "http://o#Artifact")⟩,
   ⟨str "http://o#cup_1", str "http://o#category", .lit (str "cup")⟩,
   ⟨str "http://o#cup_1", str "http://o#objectIsInSpace", .iri (str "http://o#kitchen_13")⟩,
   ⟨str "http://o#kitchen_13", TTLLoad.rdfTypeU, .iri (str "http://o#Space")⟩,
   ⟨str "http://o#floor_1", str "http://o#category", .lit (str "floor")⟩,
   ⟨str "http://o#cup_1", str "http://o#isOntopOf", .iri (str "http://o#floor_1")⟩]

/-- Subject with two listed types (first one wins). -/
def exTripsTwoTypes : List TTLLoad.TTr :=
  [⟨str "http://o#tv_52", TTLLoad.rdfTypeU, .iri (str "http://o#Artifact")⟩,
   ⟨str "http://o#tv_52", TTLLoad.rdfTypeU, .iri (str "http://o#Device")⟩]

end Instances

/-!
## Theorems

General helper lemmas first, then one theorem per claim (with its
witness or counterexample).
-/

namespace Util

theorem alookup_append {α β : Type} [DecidableEq α] (k : α) (m m2 : List (α × β)) :
    alookup k (m ++ m2) = ((alookup k m).rec (alookup k m2) (fun b => some b)) := by
  induction m with
  | nil => simp [alookup]
  | cons kv r ih =>
    by_cases h : kv.1 = k
    · simp [alookup, h]
    · simpa [alookup, h] using ih

theorem alookup_mapOver {α β : Type} [DecidableEq α] (k k2 : α) (v : β)
    (m : List (α × β)) :
    alookup k2 (m.map (fun kv => if kv.1 = k then (k, v) else kv)) =
      if k2 = k then ((alookup k m).rec none (fun _ => some v))
      else alookup k2 m := by
  induction m with
  | nil => by_cases he : k2 = k <;> simp [alookup, he]
  | cons kv r ih =>
    rw [List.map_cons]
    by_cases h : kv.1 = k
    · rw [if_pos h]
      by_cases he : k2 = k
      · subst he
        simp [alookup, h, ih]
      · have h1 : ¬ k = k2 := fun hh => he hh.symm
        have h2 : kv.1 ≠ k2 := by rw [h]; exact h1
        simp [alookup, h1, h2, he, ih]
    · rw [if_neg h]
      by_cases he : k2 = k
      · subst he
        simp [alookup, h, ih]
      · by_cases h2 : kv.1 = k2
        · simp [alookup, h2, he]
        · simp [alookup, h2, he, ih]

theorem alookup_insOver {α β : Type} [DecidableEq α] (k k2 : α) (v : β)
    (m : List (α × β)) :
    alookup k2 (insOver k v m) = if k2 = k then some v else alookup k2 m := by
  unfold insOver
  cases h : alookup k m with
  | some b =>
    rw [alookup_mapOver]
    by_cases he : k2 = k <;> simp [he, h]
  | none =>
    rw [alookup_append]
    by_cases he : k2 = k
    · subst he; simp [h, alookup]
    · cases h2 : alookup k2 m with
      | some b2 => simp [h2, he]
      | none =>
        have hks : ¬ k = k2 := fun hh => he hh.symm
        simp [alookup, he, h2, hks]

theorem alookup_insAbsent {α β : Type} [DecidableEq α] (k k2 : α) (v : β)
    (m : List (α × β)) :
    alookup k2 (insAbsent k v m) =
      if k2 = k then ((alookup k m).rec (some v) (fun b => some b))
      else alookup k2 m := by
  unfold insAbsent
  cases h : alookup k m with
  | some b =>
    by_cases he : k2 = k
    · subst he; simp [h]
    · simp [he]
  | none =>
    rw [alookup_append]
    by_cases he : k2 = k
    · subst he; simp [h, alookup]
    · cases h2 : alookup k2 m with
      | some b2 => simp [he, h2]
      | none =>
        have hks : ¬ k = k2 := fun hh => he hh.symm
        simp [alookup, he, h2, hks]

theorem mem_dedupF {α : Type} [DecidableEq α] (a : α) (l : List α) :
    a ∈ dedupF l ↔ a ∈ l := by
  induction l with
  | nil => simp [dedupF]
  | cons b r ih =>
    simp only [dedupF, List.mem_cons]
    constructor
    · rintro (h | h)
      · exact Or.inl h
      · exact Or.inr (ih.1 (List.mem_of_mem_filter h))
    · rintro (h | h)
      · exact Or.inl h
      · by_cases hab : a = b
        · exact Or.inl hab
        · exact Or.inr (List.mem_filter.2 ⟨ih.2 h, by simpa using hab⟩)

theorem nodup_dedupF {α : Type} [DecidableEq α] (l : List α) :
    (dedupF l).Nodup := by
  induction l with
  | nil => simp [dedupF]
  | cons b r ih =>
    simp only [dedupF, List.nodup_cons]
    refine ⟨fun hmem => ?_, ih.filter _⟩
    have := (List.mem_filter.1 hmem).2
    simp at this

theorem filter_eq_singleton {α : Type} [DecidableEq α] (a : α) (l : List α)
    (hnd : l.Nodup) (hmem : a ∈ l) :
    l.filter (fun x => x = a) = [a] := by
  induction l with
  | nil => cases hmem
  | cons b r ih =>
    by_cases h : b = a
    · subst h
      have hclear : r.filter (fun x => x = b) = [] := by
        refine List.filter_eq_nil_iff.2 (fun x hx => ?_)
        have hbr := (List.nodup_cons.1 hnd).1
        simp only [decide_eq_true_eq]
        rintro rfl; exact hbr hx
      simp [List.filter, hclear]
    · have hmem2 : a ∈ r := by
        rcases List.mem_cons.1 hmem with hh | hh
        · exact absurd hh.symm h
        · exact hh
      have := ih (List.nodup_cons.1 hnd).2 hmem2
      simp [List.filter, h, this]

end Util

namespace SparqlApi

open Util

theorem applyDeleteLine_short (m : Model) (l : Str)
    (h : (splitWs (stripDot l)).length < 3) : applyDeleteLine m l = m := by
  unfold applyDeleteLine
  rcases hp : splitWs (stripDot l) with _ | ⟨a, _ | ⟨b, _ | ⟨c, r⟩⟩⟩ <;>
    simp_all <;> omega

theorem applyInsertLine_short (m : Model) (l : Str)
    (h : (splitWs (stripDot l)).length < 3) : applyInsertLine m l = m := by
  unfold applyInsertLine
  rcases hp : splitWs (stripDot l) with _ | ⟨a, _ | ⟨b, _ | ⟨c, r⟩⟩⟩ <;>
    simp_all <;> omega

theorem foldDelete_id (ls : List Str) (m : Model)
    (h : ∀ l ∈ ls, (splitWs (stripDot l)).length < 3) :
    ls.foldl applyDeleteLine m = m := by
  induction ls generalizing m with
  | nil => rfl
  | cons l r ih =>
    rw [List.foldl_cons, applyDeleteLine_short m l (h l (List.mem_cons_self _ _))]
    exact ih m (fun x hx => h x (List.mem_cons_of_mem _ hx))

theorem foldInsert_id (ls : List Str) (m : Model)
    (h : ∀ l ∈ ls, (splitWs (stripDot l)).length < 3) :
    ls.foldl applyInsertLine m = m := by
  induction ls generalizing m with
  | nil => rfl
  | cons l r ih =>
    rw [List.foldl_cons, applyInsertLine_short m l (h l (List.mem_cons_self _ _))]
    exact ih m (fun x hx => h x (List.mem_cons_of_mem _ hx))

/-- Claim C1, corrected.  The `/sparql/update` handler accepts every
update string: the line-oriented section split never raises, the request
returns success whenever the final sync succeeds, and an update none of
whose section lines parses as a triple (fewer than three whitespace
tokens) leaves the asserted model untouched.  No shape check and no
`UnsupportedSparqlShape` rejection exist in the handler. -/
theorem C1_amended (m : Model) (u : Str) :
    (executeSparqlUpdate true m u).1 = UpdResult.success ∧
    (((parseSections u).1 ++ (parseSections u).2).all
        (fun l => decide ((splitWs (stripDot l)).length < 3)) = true →
      (executeSparqlUpdate true m u).2 = m) := by
  rcases hp : parseSections u with ⟨ds, is⟩
  constructor
  · simp [executeSparqlUpdate, hp]
  · intro hall
    simp only [List.all_append, Bool.and_eq_true, List.all_eq_true,
      decide_eq_true_eq] at hall
    have h1 := foldDelete_id ds m hall.1
    have h2 := foldInsert_id is (ds.foldl applyDeleteLine m) hall.2
    simp [executeSparqlUpdate, hp, h1, h1 ▸ h2]

/-- Witness for `C1_amended`: a SELECT query is accepted with success
and leaves the model unchanged. -/
theorem C1_amended_witness :
    (executeSparqlUpdate true Instances.exModel (str "SELECT ?s ?p ?o FROM g")).1 =
      UpdResult.success ∧
    (executeSparqlUpdate true Instances.exModel (str "SELECT ?s ?p ?o FROM g")).2 =
      Instances.exModel := by
  have h := C1_amended Instances.exModel (str "SELECT ?s ?p ?o FROM g")
  exact ⟨h.1, h.2 (by decide)⟩

/-- Counterexample to claim C1 as stated: a SPARQL SELECT string is not
a `DELETE/INSERT/WHERE` block, yet the handler does not reject it — it
returns success (and performs no mutation). -/
theorem C1_counterexample :
    isDeleteInsertWhereShape (str "SELECT ?s ?p ?o FROM g") = false ∧
    executeSparqlUpdate true Instances.exModel (str "SELECT ?s ?p ?o FROM g") =
      (UpdResult.success, Instances.exModel) := by
  exact ⟨by decide, by decide⟩

end SparqlApi

namespace GoalNorm

open Util

/-- Counterexample to claim C6: the normalizer is not idempotent.  On
`not ( not (isOpen x))` the first pass wraps the outer negation and
copies the inner unparenthesized `not (` verbatim; the second pass then
wraps the inner one, producing a different string. -/
theorem C6_counterexample :
    normalizeGoalFormula "not ( not (isOpen x))" = "(not ( not (isOpen x)))" ∧
    normalizeGoalFormula "(not ( not (isOpen x)))" = "(not ( (not (isOpen x))))" ∧
    normalizeGoalFormula (normalizeGoalFormula "not ( not (isOpen x))") ≠
      normalizeGoalFormula "not ( not (isOpen x))" := by
  refine ⟨by decide, by decide, ?_⟩
  intro h
  have h2 : ("(not ( (not (isOpen x))))" : String) = "(not ( not (isOpen x)))" := by
    calc ("(not ( (not (isOpen x))))" : String)
        = normalizeGoalFormula "(not ( not (isOpen x)))" := by decide
      _ = normalizeGoalFormula (normalizeGoalFormula "not ( not (isOpen x))") := by
          rw [show normalizeGoalFormula "not ( not (isOpen x))" =
            "(not ( not (isOpen x)))" from by decide]
      _ = normalizeGoalFormula "not ( not (isOpen x))" := h
      _ = "(not ( not (isOpen x)))" := by decide
  exact absurd h2 (by decide)

/-- Claim C6, corrected.  The normalizer maps `isInSpace a l` to
`artifactIsInSpace a l` and `isClosed x` to `(not (isOpen x))`
case-insensitively, and wraps an unparenthesized lowercase `not (` in
parentheses — but the wrapping itself is case-sensitive (`NOT (` is left
alone) and the normalizer is not idempotent in general (see the
counterexample): it is idempotent on the canonical goal forms, where
every negation is already parenthesized. -/
theorem C6_amended :
    (∀ g ∈ Instances.canonicalGoalExamples,
      normalizeGoalFormula (normalizeGoalFormula g) = normalizeGoalFormula g) ∧
    normalizeGoalFormula "(isInSpace tv_52 living_room_23)" =
      "(artifactIsInSpace tv_52 living_room_23)" ∧
    normalizeGoalFormula "(ISCLOSED box_7)" = "(not (isOpen box_7))" ∧
    normalizeGoalFormula "(and (isON tv_52) not (isOpen door_9))" =
      "(and (isON tv_52) (not (isOpen door_9)))" ∧
    normalizeGoalFormula "(and NOT (isOpen door_9))" = "(and NOT (isOpen door_9))" := by
  exact ⟨by decide, by decide, by decide, by decide, by decide⟩

/-- Witness for `C6_amended` at the first canonical goal form. -/
theorem C6_amended_witness :
    normalizeGoalFormula
        (normalizeGoalFormula "(and (isON tv_52) (robotIsInSpace robot1 living_room_23))") =
      normalizeGoalFormula "(and (isON tv_52) (robotIsInSpace robot1 living_room_23))" :=
  C6_amended.1 _ (by decide)

end GoalNorm

namespace Onto

open Util

/-- Claim C7, confirmed.  Both `add_individual` and `update_individual`
mutate the asserted model only after all their precondition checks have
passed, so every error return leaves the asserted OWL model exactly as
it was. -/
theorem C7_theorem (schema : List Str) (st : OState) (d : IndData) (x : Str)
    (dp : List (Str × Str)) (op : List (Str × List Str)) :
    ((addIndividual schema st d).1.ok = false → (addIndividual schema st d).2 = st) ∧
    ((updateIndividual st x dp op).1.ok = false → (updateIndividual st x dp op).2 = st) := by
  constructor
  · intro herr
    unfold addIndividual at herr ⊢
    split_ifs at herr ⊢ with h1 h2
    all_goals first | rfl | simp at herr
  · intro herr
    unfold updateIndividual at herr ⊢
    cases h : searchOne st x with
    | none => simp [h]
    | some i => rw [h] at herr; simp at herr

/-- Witness for `C7_theorem`: adding a duplicate id fails and leaves the
state unchanged; updating a missing id fails and leaves the state
unchanged. -/
theorem C7_witness :
    (addIndividual [str "Robot"] Instances.exOState
        ⟨str "robot1", str "Robot", [], []⟩).1.ok = false ∧
    (addIndividual [str "Robot"] Instances.exOState
        ⟨str "robot1", str "Robot", [], []⟩).2 = Instances.exOState ∧
    (updateIndividual Instances.exOState (str "ghost") [] []).1.ok = false ∧
    (updateIndividual Instances.exOState (str "ghost") [] []).2 = Instances.exOState := by
  have h := C7_theorem [str "Robot"] Instances.exOState
    ⟨str "robot1", str "Robot", [], []⟩ (str "ghost") [] []
  exact ⟨by decide, h.1 (by decide), by decide, h.2 (by decide)⟩

end Onto

namespace EmbedCache

open Util

/-- Claim C8, corrected.  With `generate=false` the loader does require
the cache file to exist (`FileNotFoundError` otherwise), but it performs
no metadata validation whatsoever: the cached model name and
dimensionality are only logged, never compared with the configured
values, and no mismatch error exists. -/
theorem C8_amended (cfg cfg2 : EmbConfig) (m m2 : Meta) (items : List EmbItem)
    (proj : List Str) :
    loadEmbeddingsFromFile cfg (some (.newFmt m items)) proj =
      loadEmbeddingsFromFile cfg2 (some (.newFmt m2 items)) proj ∧
    loadEmbeddingsFromFile cfg (some (.newFmt m items)) proj =
      loadEmbeddingsFromFile cfg (some (.legacy items)) proj ∧
    loadEmbeddingsFromFile cfg none proj = .error .fileNotFound :=
  ⟨rfl, rfl, rfl⟩

/-- Counterexample to claim C8 as stated: a cache whose metadata
disagrees with the configured model and dimensionality is loaded
successfully — no `EmbeddingCacheMismatch` failure occurs. -/
theorem C8_counterexample :
    Instances.exMeta.descriptionModel ≠ Instances.exCfg.descriptionModel ∧
    Instances.exMeta.descriptionDimensions ≠ Instances.exCfg.descriptionDimensions ∧
    loadEmbeddingsFromFile Instances.exCfg
        (some (.newFmt Instances.exMeta Instances.exItems)) [str "tv_52"] = .ok 1 := by
  exact ⟨by decide, by decide, rfl⟩

end EmbedCache

namespace SparqlGen

open Util

theorem mem_addAbsent (t u : Str × Str × Str) (acc : List (Str × Str × Str)) :
    t ∈ addAbsent u acc ↔ t ∈ acc ∨ t = u := by
  unfold addAbsent
  by_cases h : acc.contains u
  · rw [if_pos h]
    constructor
    · exact Or.inl
    · rintro (ht | rfl)
      · exact ht
      · simpa using h
  · rw [if_neg h]
    simp

theorem mem_addAbsent_of_mem (t u : Str × Str × Str) (acc : List (Str × Str × Str))
    (h : t ∈ acc) : t ∈ addAbsent u acc :=
  (mem_addAbsent t u acc).2 (Or.inl h)

theorem self_mem_addAbsent (u : Str × Str × Str) (acc : List (Str × Str × Str)) :
    u ∈ addAbsent u acc :=
  (mem_addAbsent u u acc).2 (Or.inr rfl)

end SparqlGen

namespace Onto

open Util SparqlGen

theorem setDataProps_id (i : OInd) (ps : List (Str × Str)) :
    (setDataProps i ps).id = i.id := by
  induction ps generalizing i with
  | nil => rfl
  | cons kv r ih => exact (ih _).trans rfl

theorem setObjProps_id (st : OState) (i : OInd) (ps : List (Str × List Str)) :
    (setObjProps st i ps).id = i.id := by
  induction ps generalizing i with
  | nil => rfl
  | cons kv r ih =>
    unfold setObjProps
    rw [List.foldl_cons]
    refine (ih _).trans ?_
    by_cases h : (kv.2.filter (fun t => (searchOne st t).isSome)) ≠ [] <;> simp [h]

theorem mem_foldVals (infer : Reasoner) (st : OState) (t : Str × Str × Str)
    (acc : List (Str × Str × Str)) (vs : List Str) (a p : Str) :
    t ∈ vs.foldl
        (fun acc3 v =>
          if (searchOne st v).isSome then addAbsent (a, p, v) acc3 else acc3)
        acc ↔
      t ∈ acc ∨ ∃ v ∈ vs, t = (a, p, v) ∧ (searchOne st v).isSome := by
  induction vs generalizing acc with
  | nil => simp
  | cons v r ih =>
    rw [List.foldl_cons]
    by_cases h : (searchOne st v).isSome
    · rw [if_pos h, ih]
      constructor
      · rintro (hmem | ⟨w, hw, rfl, hsome⟩)
        · rcases (mem_addAbsent t _ acc).1 hmem with hacc | rfl
          · exact Or.inl hacc
          · exact Or.inr ⟨v, List.mem_cons_self _ _, rfl, h⟩
        · exact Or.inr ⟨w, List.mem_cons_of_mem _ hw, rfl, hsome⟩
      · rintro (hacc | ⟨w, hw, rfl, hsome⟩)
        · exact Or.inl (mem_addAbsent_of_mem _ _ _ hacc)
        · rcases List.mem_cons.1 hw with rfl | hw2
          · exact Or.inl (self_mem_addAbsent _ _)
          · exact Or.inr ⟨w, hw2, rfl, hsome⟩
    · rw [if_neg h, ih]
      constructor
      · rintro (hacc | ⟨w, hw, rfl, hsome⟩)
        · exact Or.inl hacc
        · exact Or.inr ⟨w, List.mem_cons_of_mem _ hw, rfl, hsome⟩
      · rintro (hacc | ⟨w, hw, rfl, hsome⟩)
        · exact Or.inl hacc
        · rcases List.mem_cons.1 hw with rfl | hw2
          · exact absurd hsome h
          · exact Or.inr ⟨w, hw2, rfl, hsome⟩

theorem mem_foldProps (infer : Reasoner) (st : OState) (t : Str × Str × Str)
    (acc : List (Str × Str × Str)) (ps : List Str) (a : Str) :
    t ∈ ps.foldl
        (fun acc2 p =>
          (infer st a p).foldl
            (fun acc3 v =>
              if (searchOne st v).isSome then addAbsent (a, p, v) acc3 else acc3)
            acc2)
        acc ↔
      t ∈ acc ∨ ∃ p ∈ ps, ∃ v ∈ infer st a p, t = (a, p, v) ∧ (searchOne st v).isSome := by
  induction ps generalizing acc with
  | nil => simp
  | cons p r ih =>
    rw [List.foldl_cons, ih, mem_foldVals infer]
    constructor
    · rintro ((hacc | ⟨v, hv, rfl, hsome⟩) | ⟨q, hq, v, hv, rfl, hsome⟩)
      · exact Or.inl hacc
      · exact Or.inr ⟨p, List.mem_cons_self _ _, v, hv, rfl, hsome⟩
      · exact Or.inr ⟨q, List.mem_cons_of_mem _ hq, v, hv, rfl, hsome⟩
    · rintro (hacc | ⟨q, hq, v, hv, rfl, hsome⟩)
      · exact Or.inl (Or.inl hacc)
      · rcases List.mem_cons.1 hq with rfl | hq2
        · exact Or.inl (Or.inr ⟨v, hv, rfl, hsome⟩)
        · exact Or.inr ⟨q, hq2, v, hv, rfl, hsome⟩

theorem mem_syncEdges (infer : Reasoner) (st : OState) (props : List Str)
    (x p v : Str) :
    (x, p, v) ∈ syncEdges infer st props ↔
      (∃ i ∈ st.inds, i.id = x) ∧ p ∈ props ∧ v ∈ infer st x p ∧
        (searchOne st v).isSome := by
  unfold syncEdges
  have main : ∀ (inds : List OInd) (acc : List (Str × Str × Str)),
      (x, p, v) ∈ inds.foldl
          (fun acc i =>
            props.foldl
              (fun acc2 q =>
                (infer st i.id q).foldl
                  (fun acc3 w =>
                    if (searchOne st w).isSome then addAbsent (i.id, q, w) acc3
                    else acc3)
                  acc2)
              acc)
          acc ↔
        (x, p, v) ∈ acc ∨ ((∃ i ∈ inds, i.id = x) ∧ p ∈ props ∧ v ∈ infer st x p ∧
          (searchOne st v).isSome) := by
    intro inds
    induction inds with
    | nil => simp
    | cons i r ih =>
      intro acc
      rw [List.foldl_cons, ih, mem_foldProps infer]
      constructor
      · rintro ((hacc | ⟨q, hq, w, hw, heq, hsome⟩) | ⟨⟨j, hj, hjx⟩, hp, hv, hsome⟩)
        · exact Or.inl hacc
        · obtain ⟨h1, h2, h3⟩ := Prod.mk.injEq .. ▸ heq
          subst h1
          cases heq
          exact Or.inr ⟨⟨i, List.mem_cons_self _ _, rfl⟩, hq, hw, hsome⟩
        · exact Or.inr ⟨⟨j, List.mem_cons_of_mem _ hj, hjx⟩, hp, hv, hsome⟩
      · rintro (hacc | ⟨⟨j, hj, hjx⟩, hp, hv, hsome⟩)
        · exact Or.inl (Or.inl hacc)
        · rcases List.mem_cons.1 hj with rfl | hj2
          · exact Or.inl (Or.inr ⟨p, hp, v, hjx ▸ hv, by rw [hjx], hsome⟩)
          · exact Or.inr ⟨⟨j, hj2, hjx⟩, hp, hv, hsome⟩
  rw [main]
  simp

end Onto

namespace Onto

open Util

/-- Claim C4, corrected.  After a successful `update_individual`, the
projection holds a `robotIsInSpace` edge from `x` to `v` exactly when
the reasoner reports `v` as an `INDIRECT_` value naming an existing
individual — the mutation operations place no bound on how many such
edges exist, so I4 holds only when the reasoner reports at most one
target (the counterexample exhibits a successful update projecting two
edges). -/
theorem C4_amended (infer : Reasoner) (st : OState) (x : Str)
    (dp : List (Str × Str)) (op : List (Str × List Str)) (props : List Str)
    (p v : Str)
    (hok : (updateIndividual st x dp op).1.ok = true)
    (hp : p ∈ props) :
    ((x, p, v) ∈ syncEdges infer (updateIndividual st x dp op).2 props ↔
      v ∈ infer (updateIndividual st x dp op).2 x p ∧
        (searchOne (updateIndividual st x dp op).2 v).isSome) := by
  cases hfind : searchOne st x with
  | none => unfold updateIndividual at hok; rw [hfind] at hok; simp at hok
  | some i =>
    have hix : i.id = x := by
      have := List.find?_some hfind
      simpa using this
    have hmem : i ∈ st.inds := List.mem_of_find?_eq_some hfind
    have hst2 : (updateIndividual st x dp op).2 =
        putInd st (setObjProps st (setDataProps i dp) op) := by
      unfold updateIndividual
      rw [hfind]
    set i2 := setObjProps st (setDataProps i dp) op with hi2
    have hid2 : i2.id = x := by
      rw [hi2, setObjProps_id, setDataProps_id, hix]
    have hex : ∃ j ∈ (updateIndividual st x dp op).2.inds, j.id = x := by
      rw [hst2]
      refine ⟨i2, ?_, hid2⟩
      have hcond : (i.id == i2.id) = true := by
        rw [hix, hid2]; simp
      have hmm := List.mem_map_of_mem
        (fun j => if (j.id == i2.id : Bool) then i2 else j) hmem
      simp only [hcond, if_true] at hmm
      simpa [putInd] using hmm
    rw [mem_syncEdges]
    constructor
    · rintro ⟨_, _, hv, hsome⟩
      exact ⟨hv, hsome⟩
    · rintro ⟨hv, hsome⟩
      exact ⟨hex, hp, hv, hsome⟩

/-- Witness for `C4_amended`: a successful single-target update projects
exactly the reported edge. -/
theorem C4_amended_witness :
    ((str "robot1", str "robotIsInSpace", str "kitchen_13") ∈
        syncEdges flatReasoner
          (updateIndividual Instances.exOState (str "robot1") []
            [(str "robotIsInSpace", [str "kitchen_13"])]).2
          [str "robotIsInSpace"] ↔
      (str "kitchen_13") ∈
          flatReasoner
            (updateIndividual Instances.exOState (str "robot1") []
              [(str "robotIsInSpace", [str "kitchen_13"])]).2
            (str "robot1") (str "robotIsInSpace") ∧
        (searchOne
            (updateIndividual Instances.exOState (str "robot1") []
              [(str "robotIsInSpace", [str "kitchen_13"])]).2
            (str "kitchen_13")).isSome) :=
  C4_amended flatReasoner Instances.exOState (str "robot1") []
    [(str "robotIsInSpace", [str "kitchen_13"])] [str "robotIsInSpace"]
    (str "robotIsInSpace") (str "kitchen_13") (by decide) (by decide)

/-- Counterexample to claim C4 as stated: an `update_individual` call
asserting two `robotIsInSpace` targets returns success, and the
projection then holds two outgoing `robotIsInSpace` edges for the robot
(the reasoner here is the sound monotone reasoner with no extra axioms,
whose `INDIRECT_` values are exactly the asserted ones). -/
theorem C4_counterexample :
    ReasonerSound flatReasoner ∧
    (updateIndividual Instances.exOState (str "robot1") []
        [(str "robotIsInSpace", [str "corridor_14", str "kitchen_13"])]).1.ok = true ∧
    (outEdges
        (syncEdges flatReasoner
          (updateIndividual Instances.exOState (str "robot1") []
            [(str "robotIsInSpace", [str "corridor_14", str "kitchen_13"])]).2
          [str "robotIsInSpace"])
        (str "robot1") (str "robotIsInSpace")).length = 2 := by
  exact ⟨fun st x p v h => h, by decide, by decide⟩

end Onto

namespace TTLLoad

open Util

theorem filter_filter_drop (g : List TTr) (s0 : Str) (p : TTr → Bool)
    (h : ∀ t ∈ g, p t = true → t.subj ≠ s0) :
    (g.filter (fun t => t.subj ≠ s0)).filter p = g.filter p := by
  rw [List.filter_filter]
  refine List.filter_congr (fun t ht => ?_)
  cases hpt : p t with
  | false => simp [hpt]
  | true => simp [hpt, h t ht hpt]

theorem typedSubjects_drop (g : List TTr) (s0 : Str)
    (hno : ∀ t ∈ g, t.subj = s0 → t.pred ≠ rdfTypeU) :
    typedSubjects (g.filter (fun t => t.subj ≠ s0)) = typedSubjects g := by
  unfold typedSubjects
  rw [filter_filter_drop g s0 _ (fun t ht hp => by
    intro hs
    exact hno t ht hs (by simpa using hp))]

theorem sub_filter_drop (g : List TTr) (s0 s : Str) (hs : s ≠ s0)
    (p : TTr → Bool) :
    ((g.filter (fun t => t.subj ≠ s0)).filter (fun t => t.subj = s ∧ p t = true)) =
      (g.filter (fun t => t.subj = s ∧ p t = true)) := by
  refine filter_filter_drop g s0 _ (fun t ht hp => ?_)
  have : t.subj = s := by
    have := of_decide_eq_true hp
    exact this.1
  rw [this]
  exact hs

theorem typesOf_drop (g : List TTr) (s0 s : Str) (hs : s ≠ s0) :
    typesOf (g.filter (fun t => t.subj ≠ s0)) s = typesOf g s := by
  unfold typesOf
  congr 1
  congr 1
  exact filter_filter_drop g s0 _ (fun t _ hp => by
    have := of_decide_eq_true hp
    rw [this.1]; exact hs)

theorem dataPropsOf_drop (g : List TTr) (s0 s : Str) (hs : s ≠ s0) :
    dataPropsOf (g.filter (fun t => t.subj ≠ s0)) s = dataPropsOf g s := by
  unfold dataPropsOf
  congr 1
  exact filter_filter_drop g s0 _ (fun t _ hp => by
    have := of_decide_eq_true hp
    rw [this.1]; exact hs)

theorem objPropsOf_drop (g : List TTr) (s0 s : Str) (hs : s ≠ s0) :
    objPropsOf (g.filter (fun t => t.subj ≠ s0)) s = objPropsOf g s := by
  unfold objPropsOf
  congr 1
  exact filter_filter_drop g s0 _ (fun t _ hp => by
    have := of_decide_eq_true hp
    rw [this.1]; exact hs)

theorem mem_typedSubjects_ne (g : List TTr) (s0 s : Str)
    (hno : ∀ t ∈ g, t.subj = s0 → t.pred ≠ rdfTypeU)
    (hmem : s ∈ typedSubjects g) : s ≠ s0 := by
  intro h
  subst h
  unfold typedSubjects at hmem
  rw [mem_dedupF] at hmem
  rcases List.mem_map.1 hmem with ⟨t, ht, hts⟩
  have := List.mem_filter.1 ht
  exact hno t this.1 hts (of_decide_eq_true this.2)

theorem extractOne_drop (g : List TTr) (s0 s : Str) (hs : s ≠ s0) :
    extractOne (g.filter (fun t => t.subj ≠ s0)) s = extractOne g s := by
  unfold extractOne
  rw [typesOf_drop g s0 s hs, dataPropsOf_drop g s0 s hs, objPropsOf_drop g s0 s hs]

/-- Claim C10, confirmed.  A subject with no `rdf:type` triple is
silently skipped by the TTL ingest: it never enters the subject set, the
whole load behaves as if its triples were absent (so it is not counted
as added or failed), and the load still reports success; a subject with
several `rdf:type` triples is created with the first listed type. -/
theorem C10_theorem (schema : List Str) (st : Onto.OState) (g : List TTr)
    (s0 : Str) (hno : ∀ t ∈ g, t.subj = s0 → t.pred ≠ rdfTypeU) :
    s0 ∉ typedSubjects g ∧
    extractIndividuals (g.filter (fun t => t.subj ≠ s0)) = extractIndividuals g ∧
    loadInstancesFromTTL schema st (g.filter (fun t => t.subj ≠ s0)) =
      loadInstancesFromTTL schema st g ∧
    (loadInstancesFromTTL schema st g).1.ok = true ∧
    (∀ s ty rest, s ∈ typedSubjects g → ¬ subIn (str "Ontology") s = true →
      afterLast '#' s ≠ [] → typesOf g s = ty :: rest →
      (⟨afterLast '#' s, afterLast '#' (objStr ty), dataPropsOf g s,
        objPropsOf g s⟩ : Onto.IndData) ∈ extractIndividuals g) := by
  have hnotin : s0 ∉ typedSubjects g := by
    intro hmem
    exact (mem_typedSubjects_ne g s0 s0 hno hmem) rfl
  have hext : extractIndividuals (g.filter (fun t => t.subj ≠ s0)) =
      extractIndividuals g := by
    unfold extractIndividuals
    rw [typedSubjects_drop g s0 hno]
    refine List.filterMap_congr (fun s hs => ?_)
    exact extractOne_drop g s0 s (mem_typedSubjects_ne g s0 s hno hs)
  refine ⟨hnotin, hext, ?_, ?_, ?_⟩
  · unfold loadInstancesFromTTL
    rw [hext]
  · unfold loadInstancesFromTTL Onto.addIndividualsBatch
    rcases h : Onto.batchPass1 schema st (extractIndividuals g) with ⟨st1, a, f⟩
    simp
  · intro s ty rest hs hont hsid hty
    unfold extractIndividuals
    refine List.mem_filterMap.2 ⟨s, hs, ?_⟩
    unfold extractOne
    rw [hty]
    have hcond : ¬ (subIn (str "Ontology") s = true ∨ afterLast '#' s = []) := by
      rintro (h | h)
      · exact hont h
      · exact hsid h
    rw [if_neg hcond]

/-- Witness for `C10_theorem` on a parsed file with an untyped subject
`floor_1` and a two-type subject check on a second file. -/
theorem C10_witness :
    (Util.str "http://o#floor_1") ∉ typedSubjects Instances.exTrips ∧
    loadInstancesFromTTL [Util.str "Artifact", Util.str "Space"] ⟨[]⟩
        (Instances.exTrips.filter (fun t => t.subj ≠ Util.str "http://o#floor_1")) =
      loadInstancesFromTTL [Util.str "Artifact", Util.str "Space"] ⟨[]⟩
        Instances.exTrips ∧
    (loadInstancesFromTTL [Util.str "Artifact", Util.str "Space"] ⟨[]⟩
        Instances.exTrips).1.ok = true ∧
    (⟨Util.str "tv_52", Util.str "Artifact", [], []⟩ : Onto.IndData) ∈
      extractIndividuals Instances.exTripsTwoTypes := by
  have h := C10_theorem [Util.str "Artifact", Util.str "Space"] ⟨[]⟩
    Instances.exTrips (Util.str "http://o#floor_1") (by decide)
  have h2 := C10_theorem [Util.str "Artifact"] ⟨[]⟩ Instances.exTripsTwoTypes
    (Util.str "none") (by decide)
  refine ⟨h.1, h.2.2.1, h.2.2.2.1, ?_⟩
  have := h2.2.2.2.2 (Util.str "http://o#tv_52")
    (TTLLoad.RObj.iri (Util.str "http://o#Artifact"))
    [TTLLoad.RObj.iri (Util.str "http://o#Device")]
    (by decide) (by decide) (by decide) (by decide)
  simpa using this

end TTLLoad

namespace PGraphM

open Util

theorem le_foldl_max (l : List Nat) (a : Nat) : ∀ x ∈ l, x ≤ l.foldl max a := by
  induction l generalizing a with
  | nil => intro x hx; cases hx
  | cons b r ih =>
    intro x hx
    rcases List.mem_cons.1 hx with rfl | hx2
    · calc x ≤ max a x := le_max_right _ _
        _ ≤ r.foldl max (max a x) := by
          clear ih hx
          induction r generalizing a x with
          | nil => exact le_refl _
          | cons c rr ih2 =>
            calc max a x ≤ max (max a x) c := le_max_left _ _
              _ ≤ rr.foldl max (max (max a x) c) := ih2 _ _
    · exact ih (max a b) x hx2

theorem freshKey_not_mem (g : PGr) : freshKey g ∉ g.nodes.map (·.key) := by
  intro h
  have := le_foldl_max (g.nodes.map (·.key)) 0 _ h
  unfold freshKey at this
  omega

theorem schemaNodes_detach (g : PGr) :
    schemaNodes (detachDeleteIndividuals g) = schemaNodes g := by
  unfold schemaNodes detachDeleteIndividuals
  rw [List.filter_filter]
  exact (List.filter_congr (fun n _ => by cases h : isIndiv n <;> simp [h])).symm

theorem schemaEdges_detach (g : PGr) :
    schemaEdges (detachDeleteIndividuals g) = schemaEdges g := by
  unfold schemaEdges
  rw [schemaNodes_detach]
  show (detachDeleteIndividuals g).edges.filter _ = _
  unfold detachDeleteIndividuals schemaNodes
  rw [List.filter_filter]
  exact (List.filter_congr (fun e _ => by
    cases h1 : ((List.filter (fun n => !isIndiv n) g.nodes).map (·.key)).contains e.1 <;>
    cases h2 : ((List.filter (fun n => !isIndiv n) g.nodes).map (·.key)).contains e.2.2 <;>
      simp [h1, h2])).symm

theorem keys_detach_sub (g : PGr) (k : Nat)
    (h : k ∈ (detachDeleteIndividuals g).nodes.map (·.key)) :
    k ∈ g.nodes.map (·.key) := by
  unfold detachDeleteIndividuals at h
  rcases List.mem_map.1 h with ⟨n, hn, rfl⟩
  exact List.mem_map_of_mem _ (List.mem_of_mem_filter hn)

theorem nodup_detach (g : PGr) (h : (g.nodes.map (·.key)).Nodup) :
    ((detachDeleteIndividuals g).nodes.map (·.key)).Nodup := by
  have hsub : List.Sublist (detachDeleteIndividuals g).nodes g.nodes := by
    unfold detachDeleteIndividuals
    exact List.filter_sublist _
  exact List.Nodup.sublist (List.Sublist.map _ hsub) h

end PGraphM

namespace PGraphM

open Util

theorem filter_map_fix {α : Type} (f : α → α) (q : α → Bool) (l : List α)
    (hq : ∀ a, q (f a) = q a) (hfix : ∀ a, q a = true → f a = a) :
    (l.map f).filter q = l.filter q := by
  induction l with
  | nil => rfl
  | cons a r ih =>
    rw [List.map_cons, List.filter_cons, List.filter_cons, hq a]
    cases h : q a with
    | false => simpa using ih
    | true => simpa [hfix a h] using ih

theorem isIndiv_setPropFun (x k v : Str) (n : PNode) :
    isIndiv (if n.labels.contains (str "Individual") ∧ n.id == x then
      { n with props := insOver k v n.props } else n) = isIndiv n := by
  split <;> rfl

theorem key_setPropFun (x k v : Str) (n : PNode) :
    (if n.labels.contains (str "Individual") ∧ n.id == x then
      { n with props := insOver k v n.props } else n).key = n.key := by
  split <;> rfl

theorem schemaNodes_setPropOn (g : PGr) (x k v : Str) :
    schemaNodes (setPropOn g (str "Individual") x k v) = schemaNodes g := by
  unfold schemaNodes setPropOn
  refine filter_map_fix _ _ _ (fun n => by rw [isIndiv_setPropFun]) ?_
  intro n hn
  have hni : isIndiv n = false := by
    cases h : isIndiv n
    · rfl
    · rw [h] at hn; cases hn
  have : ¬ (n.labels.contains (str "Individual") ∧ n.id == x) := by
    rintro ⟨h1, h2⟩
    unfold isIndiv at hni
    rw [h1] at hni
    cases hni
  rw [if_neg this]

theorem keys_setPropOn (g : PGr) (x k v : Str) :
    (setPropOn g (str "Individual") x k v).nodes.map (·.key) = g.nodes.map (·.key) := by
  unfold setPropOn
  rw [List.map_map]
  exact List.map_congr_left (fun n _ => key_setPropFun x k v n)

theorem edges_setPropOn (g : PGr) (lab x k v : Str) :
    (setPropOn g lab x k v).edges = g.edges := rfl

theorem schemaEdges_setPropOn (g : PGr) (x k v : Str) :
    schemaEdges (setPropOn g (str "Individual") x k v) = schemaEdges g := by
  unfold schemaEdges
  rw [schemaNodes_setPropOn, edges_setPropOn]

theorem nodes_mergeNode_found (g : PGr) (labels : List Str) (x : Str)
    (h : g.nodes.any (fun n => n.id == x ∧ labels.all (n.labels.contains ·)) = true) :
    mergeNode g labels x = g := by
  unfold mergeNode
  rw [if_pos h]

theorem schemaNodes_mergeNode (g : PGr) (labels : List Str) (x : Str)
    (hind : labels.contains (str "Individual") = true) :
    schemaNodes (mergeNode g labels x) = schemaNodes g := by
  unfold mergeNode
  by_cases h : g.nodes.any (fun n => n.id == x ∧ labels.all (n.labels.contains ·)) = true
  · rw [if_pos h]
  · rw [if_neg h]
    unfold schemaNodes
    rw [List.filter_append]
    have : isIndiv ⟨freshKey g, x, labels, []⟩ = true := hind
    simp [this]

theorem edges_mergeNode (g : PGr) (labels : List Str) (x : Str) :
    (mergeNode g labels x).edges = g.edges := by
  unfold mergeNode
  by_cases h : g.nodes.any (fun n => n.id == x ∧ labels.all (n.labels.contains ·)) = true
  · rw [if_pos h]
  · rw [if_neg h]

theorem schemaEdges_mergeNode (g : PGr) (labels : List Str) (x : Str)
    (hind : labels.contains (str "Individual") = true) :
    schemaEdges (mergeNode g labels x) = schemaEdges g := by
  unfold schemaEdges
  rw [schemaNodes_mergeNode g labels x hind, edges_mergeNode]

theorem nodup_mergeNode (g : PGr) (labels : List Str) (x : Str)
    (hnd : (g.nodes.map (·.key)).Nodup) :
    ((mergeNode g labels x).nodes.map (·.key)).Nodup := by
  unfold mergeNode
  by_cases h : g.nodes.any (fun n => n.id == x ∧ labels.all (n.labels.contains ·)) = true
  · rw [if_pos h]; exact hnd
  · rw [if_neg h]
    show ((g.nodes ++
      [({ key := freshKey g, id := x, labels := labels, props := [] } : PNode)]).map
        (·.key)).Nodup
    rw [List.map_append]
    refine List.Nodup.append hnd (by simp) ?_
    intro a ha hb
    simp at hb
    subst hb
    exact freshKey_not_mem g ha

end PGraphM

namespace PGraphM

open Util

theorem nodes_mergeEdges (g : PGr) (la xa rel lb xb : Str) :
    (mergeEdgesBetween g la xa rel lb xb).nodes = g.nodes := rfl

theorem key_of_indiv_not_schema (g : PGr) (hnd : (g.nodes.map (·.key)).Nodup)
    (n : PNode) (hn : n ∈ g.nodes) (hi : isIndiv n = true) :
    ((schemaNodes g).map (·.key)).contains n.key = false := by
  cases hc : ((schemaNodes g).map (·.key)).contains n.key with
  | false => rfl
  | true =>
    exfalso
    have hmem : n.key ∈ (schemaNodes g).map (·.key) := by simpa using hc
    rcases List.mem_map.1 hmem with ⟨m, hm, hkey⟩
    have hmg : m ∈ g.nodes := List.mem_of_mem_filter hm
    have heq : m = n := List.inj_on_of_nodup_map hnd hmg hn hkey
    have := (List.mem_filter.1 hm).2
    rw [heq] at this
    simp [hi] at this

theorem filter_fold_tgts (ks : List Nat) (s : Nat) (rel : Str) (tgts : List Nat)
    (es : List PEdge) (hs : ks.contains s = false) :
    (tgts.foldl
        (fun es2 t => if es2.contains (s, rel, t) then es2 else es2 ++ [(s, rel, t)])
        es).filter (fun e => ks.contains e.1 ∧ ks.contains e.2.2) =
      es.filter (fun e => ks.contains e.1 ∧ ks.contains e.2.2) := by
  induction tgts generalizing es with
  | nil => rfl
  | cons t r ih =>
    rw [List.foldl_cons]
    by_cases h : es.contains (s, rel, t) = true
    · rw [if_pos h, ih]
    · rw [if_neg h, ih, List.filter_append]
      have hs2 : s ∉ ks := by simpa using hs
      have : ((([(s, rel, t)] : List PEdge)).filter
          (fun e => ks.contains e.1 ∧ ks.contains e.2.2)) = [] := by
        simp [hs2]
      rw [this, List.append_nil]

theorem filter_fold_srcs (ks : List Nat) (rel : Str) (srcs tgts : List Nat)
    (es : List PEdge) (hsrcs : ∀ s ∈ srcs, ks.contains s = false) :
    (srcs.foldl
        (fun es s =>
          tgts.foldl
            (fun es2 t => if es2.contains (s, rel, t) then es2 else es2 ++ [(s, rel, t)])
            es)
        es).filter (fun e => ks.contains e.1 ∧ ks.contains e.2.2) =
      es.filter (fun e => ks.contains e.1 ∧ ks.contains e.2.2) := by
  induction srcs generalizing es with
  | nil => rfl
  | cons s r ih =>
    rw [List.foldl_cons, ih _ (fun u hu => hsrcs u (List.mem_cons_of_mem _ hu))]
    exact filter_fold_tgts ks s rel tgts es (hsrcs s (List.mem_cons_self _ _))

theorem schemaEdges_mergeEdges (g : PGr) (xa rel lb xb : Str)
    (hnd : (g.nodes.map (·.key)).Nodup) :
    schemaEdges (mergeEdgesBetween g (str "Individual") xa rel lb xb) =
      schemaEdges g := by
  unfold schemaEdges
  have hn : schemaNodes (mergeEdgesBetween g (str "Individual") xa rel lb xb) =
      schemaNodes g := by
    unfold schemaNodes
    rw [nodes_mergeEdges]
  rw [hn]
  show (mergeEdgesBetween g (str "Individual") xa rel lb xb).edges.filter _ = _
  unfold mergeEdgesBetween
  refine filter_fold_srcs _ rel _ _ g.edges ?_
  intro s hs
  rcases List.mem_map.1 hs with ⟨n, hn2, rfl⟩
  have hnmem := List.mem_of_mem_filter hn2
  have hind : isIndiv n = true := by
    have := (List.mem_filter.1 hn2).2
    have hcond := of_decide_eq_true this
    unfold isIndiv
    exact hcond.1
  exact key_of_indiv_not_schema g hnd n hnmem hind

theorem schemaNodes_mergeEdges (g : PGr) (la xa rel lb xb : Str) :
    schemaNodes (mergeEdgesBetween g la xa rel lb xb) = schemaNodes g := by
  unfold schemaNodes
  rw [nodes_mergeEdges]

theorem nodup_mergeEdges (g : PGr) (la xa rel lb xb : Str)
    (hnd : (g.nodes.map (·.key)).Nodup) :
    ((mergeEdgesBetween g la xa rel lb xb).nodes.map (·.key)).Nodup := by
  rw [nodes_mergeEdges]; exact hnd

end PGraphM

namespace PGraphM

open Util

theorem foldMergeEdges_pres (xa rel lb : Str) (cs : List Str) :
    ∀ (g : PGr), (g.nodes.map (·.key)).Nodup →
    schemaNodes (cs.foldl
      (fun h c => mergeEdgesBetween h (str "Individual") xa rel lb c) g) =
        schemaNodes g ∧
    schemaEdges (cs.foldl
      (fun h c => mergeEdgesBetween h (str "Individual") xa rel lb c) g) =
        schemaEdges g ∧
    ((cs.foldl
      (fun h c => mergeEdgesBetween h (str "Individual") xa rel lb c) g).nodes.map
        (·.key)).Nodup := by
  induction cs with
  | nil => exact fun g hd => ⟨rfl, rfl, hd⟩
  | cons c r ih =>
    intro g hd
    rw [List.foldl_cons]
    have sn := schemaNodes_mergeEdges g (str "Individual") xa rel lb c
    have se := schemaEdges_mergeEdges g xa rel lb c hd
    have sd := nodup_mergeEdges g (str "Individual") xa rel lb c hd
    obtain ⟨a, b, d⟩ := ih _ sd
    exact ⟨a.trans sn, b.trans se, d⟩

theorem foldSetProp_pres (x : Str) (ps : List (Str × Str)) :
    ∀ (g : PGr), (g.nodes.map (·.key)).Nodup →
    schemaNodes (ps.foldl
      (fun h kv => setPropOn h (str "Individual") x kv.1 kv.2) g) = schemaNodes g ∧
    schemaEdges (ps.foldl
      (fun h kv => setPropOn h (str "Individual") x kv.1 kv.2) g) = schemaEdges g ∧
    ((ps.foldl
      (fun h kv => setPropOn h (str "Individual") x kv.1 kv.2) g).nodes.map
        (·.key)).Nodup := by
  induction ps with
  | nil => exact fun g hd => ⟨rfl, rfl, hd⟩
  | cons kv r ih =>
    intro g hd
    rw [List.foldl_cons]
    have sn := schemaNodes_setPropOn g x kv.1 kv.2
    have se := schemaEdges_setPropOn g x kv.1 kv.2
    have sd : ((setPropOn g (str "Individual") x kv.1 kv.2).nodes.map (·.key)).Nodup := by
      rw [keys_setPropOn]; exact hd
    obtain ⟨a, b, d⟩ := ih _ sd
    exact ⟨a.trans sn, b.trans se, d⟩

theorem projectNode_pres (g : PGr) (i : ProjInd)
    (hnd : (g.nodes.map (·.key)).Nodup) :
    schemaNodes (projectNode g i) = schemaNodes g ∧
    schemaEdges (projectNode g i) = schemaEdges g ∧
    ((projectNode g i).nodes.map (·.key)).Nodup := by
  unfold projectNode
  have hlab : (str "Individual" :: i.classLabels).contains (str "Individual") = true := by
    simp
  have h1n := schemaNodes_mergeNode g (str "Individual" :: i.classLabels) i.id hlab
  have h1e := schemaEdges_mergeNode g (str "Individual" :: i.classLabels) i.id hlab
  have h1d := nodup_mergeNode g (str "Individual" :: i.classLabels) i.id hnd
  obtain ⟨h2n, h2e, h2d⟩ := foldMergeEdges_pres i.id (str "INSTANCE_OF") (str "Class")
    i.classLabels _ h1d
  obtain ⟨h3n, h3e, h3d⟩ := foldSetProp_pres i.id i.dataProps _ h2d
  exact ⟨h3n.trans (h2n.trans h1n), h3e.trans (h2e.trans h1e), h3d⟩

theorem projectEdges_pres (g : PGr) (i : ProjInd)
    (hnd : (g.nodes.map (·.key)).Nodup) :
    schemaNodes (projectEdges g i) = schemaNodes g ∧
    schemaEdges (projectEdges g i) = schemaEdges g ∧
    ((projectEdges g i).nodes.map (·.key)).Nodup := by
  unfold projectEdges
  have main : ∀ (rels : List (Str × List Str)) (gg : PGr),
      (gg.nodes.map (·.key)).Nodup →
      schemaNodes (rels.foldl
        (fun h pr => pr.2.foldl
          (fun h2 v => mergeEdgesBetween h2 (str "Individual") i.id pr.1
            (str "Individual") v) h) gg) = schemaNodes gg ∧
      schemaEdges (rels.foldl
        (fun h pr => pr.2.foldl
          (fun h2 v => mergeEdgesBetween h2 (str "Individual") i.id pr.1
            (str "Individual") v) h) gg) = schemaEdges gg ∧
      ((rels.foldl
        (fun h pr => pr.2.foldl
          (fun h2 v => mergeEdgesBetween h2 (str "Individual") i.id pr.1
            (str "Individual") v) h) gg).nodes.map (·.key)).Nodup := by
    intro rels
    induction rels with
    | nil => exact fun gg hd => ⟨rfl, rfl, hd⟩
    | cons pr r ih =>
      intro gg hd
      rw [List.foldl_cons]
      obtain ⟨sn, se, sd⟩ := foldMergeEdges_pres i.id pr.1 (str "Individual") pr.2 gg hd
      obtain ⟨a, b, d⟩ := ih _ sd
      exact ⟨a.trans sn, b.trans se, d⟩
  exact main i.rels g hnd

/-- Claim C9, confirmed.  The full sync deletes and recreates only
`Individual` nodes and their incident relationships: for any starting
projection with distinct node keys, the non-`Individual` nodes (the
`Class` and `Property` nodes created at initialization, with all their
properties) and every relationship between two such nodes (in
particular `SUBCLASS_OF`, `SUBPROPERTY_OF`, `HAS_DOMAIN`, `HAS_RANGE`)
are exactly the same after `sync_to_neo4j` as before. -/
theorem C9_theorem (g : PGr) (inds : List ProjInd) (embs : List (Str × Str))
    (hnd : (g.nodes.map (·.key)).Nodup) :
    schemaNodes (syncProjection g inds embs) = schemaNodes g ∧
    schemaEdges (syncProjection g inds embs) = schemaEdges g := by
  unfold syncProjection
  set g0 := detachDeleteIndividuals g with hg0
  have h0n : schemaNodes g0 = schemaNodes g := schemaNodes_detach g
  have h0e : schemaEdges g0 = schemaEdges g := schemaEdges_detach g
  have h0d : (g0.nodes.map (·.key)).Nodup := nodup_detach g hnd
  clear hg0
  have h1 : ∀ (is2 : List ProjInd) (gg : PGr), (gg.nodes.map (·.key)).Nodup →
      schemaNodes (is2.foldl projectNode gg) = schemaNodes gg ∧
      schemaEdges (is2.foldl projectNode gg) = schemaEdges gg ∧
      ((is2.foldl projectNode gg).nodes.map (·.key)).Nodup := by
    intro is2
    induction is2 with
    | nil => exact fun gg hd => ⟨rfl, rfl, hd⟩
    | cons i r ih =>
      intro gg hd
      rw [List.foldl_cons]
      obtain ⟨sn, se, sd⟩ := projectNode_pres gg i hd
      obtain ⟨a, b, d⟩ := ih _ sd
      exact ⟨a.trans sn, b.trans se, d⟩
  have h2 : ∀ (is2 : List ProjInd) (gg : PGr), (gg.nodes.map (·.key)).Nodup →
      schemaNodes (is2.foldl projectEdges gg) = schemaNodes gg ∧
      schemaEdges (is2.foldl projectEdges gg) = schemaEdges gg ∧
      ((is2.foldl projectEdges gg).nodes.map (·.key)).Nodup := by
    intro is2
    induction is2 with
    | nil => exact fun gg hd => ⟨rfl, rfl, hd⟩
    | cons i r ih =>
      intro gg hd
      rw [List.foldl_cons]
      obtain ⟨sn, se, sd⟩ := projectEdges_pres gg i hd
      obtain ⟨a, b, d⟩ := ih _ sd
      exact ⟨a.trans sn, b.trans se, d⟩
  have h3 : ∀ (es : List (Str × Str)) (gg : PGr), (gg.nodes.map (·.key)).Nodup →
      schemaNodes (es.foldl (fun h kv => writeEmbedding h kv.1 kv.2) gg) =
        schemaNodes gg ∧
      schemaEdges (es.foldl (fun h kv => writeEmbedding h kv.1 kv.2) gg) =
        schemaEdges gg := by
    intro es
    induction es with
    | nil => exact fun gg _ => ⟨rfl, rfl⟩
    | cons kv r ih =>
      intro gg hd
      rw [List.foldl_cons]
      have sn : schemaNodes (writeEmbedding gg kv.1 kv.2) = schemaNodes gg :=
        schemaNodes_setPropOn gg kv.1 _ kv.2
      have se : schemaEdges (writeEmbedding gg kv.1 kv.2) = schemaEdges gg :=
        schemaEdges_setPropOn gg kv.1 _ kv.2
      have sd : ((writeEmbedding gg kv.1 kv.2).nodes.map (·.key)).Nodup := by
        unfold writeEmbedding
        rw [keys_setPropOn]
        exact hd
      obtain ⟨a, b⟩ := ih _ sd
      exact ⟨a.trans sn, b.trans se⟩
  obtain ⟨a1, b1, d1⟩ := h1 inds g0 h0d
  obtain ⟨a2, b2, d2⟩ := h2 inds _ d1
  obtain ⟨a3, b3⟩ := h3 embs _ d2
  exact ⟨a3.trans (a2.trans (a1.trans h0n)), b3.trans (b2.trans (b1.trans h0e))⟩

/-- Witness for `C9_theorem`: syncing two reasoned individuals into a
projection holding the schema leaves the schema part untouched. -/
theorem C9_witness :
    schemaNodes (syncProjection Instances.exSchemaGraph Instances.exProjInds
        [(str "corridor_14", str "emb")]) = schemaNodes Instances.exSchemaGraph ∧
    schemaEdges (syncProjection Instances.exSchemaGraph Instances.exProjInds
        [(str "corridor_14", str "emb")]) = schemaEdges Instances.exSchemaGraph :=
  C9_theorem Instances.exSchemaGraph Instances.exProjInds
    [(str "corridor_14", str "emb")] (by decide)

end PGraphM

namespace SparqlGen

open Util

theorem mem_foldAddAbsent (l : List (Str × Str × Str)) (acc : List (Str × Str × Str))
    (t : Str × Str × Str) (h : t ∈ acc ∨ t ∈ l) :
    t ∈ l.foldl (fun a it => addAbsent it a) acc := by
  induction l generalizing acc with
  | nil =>
    rcases h with h | h
    · exact h
    · cases h
  | cons u r ih =>
    rw [List.foldl_cons]
    rcases h with h | h
    · exact ih _ (Or.inl (mem_addAbsent_of_mem _ _ _ h))
    · rcases List.mem_cons.1 h with rfl | h2
      · exact ih _ (Or.inl (self_mem_addAbsent _ _))
      · exact ih _ (Or.inr h2)

theorem mem_deleteSet_phase1 (removed : List RTriple) (t : RTriple)
    (h : t ∈ removed) :
    (strTerm t.1, strTerm t.2.1, strTerm t.2.2) ∈ deleteSetPhase1 removed := by
  unfold deleteSetPhase1
  have main : ∀ (l : List RTriple) (acc : List (Str × Str × Str)),
      ((strTerm t.1, strTerm t.2.1, strTerm t.2.2) ∈ acc ∨ t ∈ l) →
      (strTerm t.1, strTerm t.2.1, strTerm t.2.2) ∈
        l.foldl (fun acc u => addAbsent (strTerm u.1, strTerm u.2.1, strTerm u.2.2) acc)
          acc := by
    intro l
    induction l with
    | nil =>
      rintro acc (h | h)
      · exact h
      · cases h
    | cons u r ih =>
      rintro acc (hacc | hmem)
      · exact ih _ (Or.inl (mem_addAbsent_of_mem _ _ _ hacc))
      · rcases List.mem_cons.1 hmem with rfl | h2
        · exact ih _ (Or.inl (self_mem_addAbsent _ _))
        · exact ih _ (Or.inr h2)
  exact main removed [] (Or.inr h)

theorem mem_deleteSet_of_inferred (removed : List RTriple) (mp : RelMapping)
    (ns : Str) (tr : RTriple) (t0 : Str × Str × Str)
    (hmem : tr ∈ removed) (hinf : t0 ∈ inferredOf ns mp tr) :
    t0 ∈ deleteSet removed (some mp) ns := by
  unfold deleteSet
  have main : ∀ (l : List RTriple) (acc : List (Str × Str × Str)),
      (t0 ∈ acc ∨ tr ∈ l) →
      t0 ∈ l.foldl (fun acc u => (inferredOf ns mp u).foldl
          (fun a it => addAbsent it a) acc) acc := by
    intro l
    induction l with
    | nil =>
      rintro acc (h | h)
      · exact h
      · cases h
    | cons u r ih =>
      rintro acc (hacc | hm)
      · exact ih _ (Or.inl (mem_foldAddAbsent _ _ _ (Or.inl hacc)))
      · rcases List.mem_cons.1 hm with rfl | h2
        · exact ih _ (Or.inl (mem_foldAddAbsent _ _ _ (Or.inr hinf)))
        · exact ih _ (Or.inr h2)
  exact main removed _ (Or.inr hmem)

theorem deleteSet_preserves_phase1 (removed : List RTriple) (mp : Option RelMapping)
    (ns : Str) (t : RTriple) (h : t ∈ removed) :
    (strTerm t.1, strTerm t.2.1, strTerm t.2.2) ∈ deleteSet removed mp ns := by
  cases mp with
  | none => exact mem_deleteSet_phase1 removed t h
  | some m =>
    unfold deleteSet
    have base := mem_deleteSet_phase1 removed t h
    have main : ∀ (l : List RTriple) (acc : List (Str × Str × Str)),
        (strTerm t.1, strTerm t.2.1, strTerm t.2.2) ∈ acc →
        (strTerm t.1, strTerm t.2.1, strTerm t.2.2) ∈
          l.foldl (fun acc u => (inferredOf ns m u).foldl
            (fun a it => addAbsent it a) acc) acc := by
      intro l
      induction l with
      | nil => exact fun acc h => h
      | cons u r ih =>
        intro acc hacc
        exact ih _ (mem_foldAddAbsent _ _ _ (Or.inl hacc))
    exact main removed _ base

/-- Claim C3, confirmed.  For every removed triple whose predicate has
one of the six asserted spatial local names, the generator appends to
the DELETE set — besides the removed triple itself — one triple per
entry of the relationship-mapping table for that predicate, with subject
and object swapped for `inverse_inference` entries and kept in place for
all other kinds (`subproperty`, `property_chain`). -/
theorem C3_theorem (removed : List RTriple) (mp : RelMapping) (ns : Str)
    (s p o : RTerm) (pl : Str) (e : MapEntry)
    (hmem : (s, p, o) ∈ removed)
    (hpl : predLocal (strTerm p) = some pl)
    (hass : pl ∈ assertedPredicates)
    (he : e ∈ ((alookup pl mp).getD [])) :
    (strTerm s, strTerm p, strTerm o) ∈ deleteSet removed (some mp) ns ∧
    (if e.kind = str "inverse_inference" then
        (qualifyTerm ns (termLocal (strTerm o)), qualifyPred ns e.relationship,
          qualifyTerm ns (termLocal (strTerm s)))
      else
        (qualifyTerm ns (termLocal (strTerm s)), qualifyPred ns e.relationship,
          qualifyTerm ns (termLocal (strTerm o)))) ∈
      deleteSet removed (some mp) ns := by
  constructor
  · exact deleteSet_preserves_phase1 removed (some mp) ns (s, p, o) hmem
  · refine mem_deleteSet_of_inferred removed mp ns (s, p, o) _ hmem ?_
    unfold inferredOf
    rw [hpl]
    have hass2 : assertedPredicates.contains pl = true := by
      simpa using hass
    simp only [hass2, if_true]
    unfold getInferredForDelete
    cases halk : alookup pl mp with
    | none => rw [halk] at he; cases he
    | some entries =>
      rw [halk] at he
      simp only [Option.getD] at he
      exact List.mem_map_of_mem _ he

/-- Witness for `C3_theorem`: removing the robot-location triple appends
the subproperty companion in place and the inverse companion swapped. -/
theorem C3_witness :
    ((str "http://o#robot1", str "http://o#robotIsInSpace", str "http://o#corridor_14") ∈
      deleteSet
        [(RTerm.uri (str "http://o#robot1"), RTerm.uri (str "http://o#robotIsInSpace"),
          RTerm.uri (str "http://o#corridor_14"))]
        (some Instances.exMapping) Instances.exNs) ∧
    ((Instances.exNs ++ '#' :: str "corridor_14",
      Instances.exNs ++ '#' :: str "spaceHasObject",
      Instances.exNs ++ '#' :: str "robot1") ∈
      deleteSet
        [(RTerm.uri (str "http://o#robot1"), RTerm.uri (str "http://o#robotIsInSpace"),
          RTerm.uri (str "http://o#corridor_14"))]
        (some Instances.exMapping) Instances.exNs) := by
  have h1 := C3_theorem
    [(RTerm.uri (str "http://o#robot1"), RTerm.uri (str "http://o#robotIsInSpace"),
      RTerm.uri (str "http://o#corridor_14"))]
    Instances.exMapping Instances.exNs
    (RTerm.uri (str "http://o#robot1")) (RTerm.uri (str "http://o#robotIsInSpace"))
    (RTerm.uri (str "http://o#corridor_14"))
    (str "robotIsInSpace") ⟨str "spaceHasObject", str "inverse_inference"⟩
    (by decide) (by decide) (by decide) (by decide)
  refine ⟨h1.1, ?_⟩
  have h2 := h1.2
  rw [if_pos (by decide)] at h2
  have hsub : qualifyTerm Instances.exNs (termLocal (strTerm
      (RTerm.uri (str "http://o#corridor_14")))) =
      Instances.exNs ++ '#' :: str "corridor_14" := by decide
  have hpred : qualifyPred Instances.exNs (str "spaceHasObject") =
      Instances.exNs ++ '#' :: str "spaceHasObject" := by decide
  have hobj : qualifyTerm Instances.exNs (termLocal (strTerm
      (RTerm.uri (str "http://o#robot1")))) =
      Instances.exNs ++ '#' :: str "robot1" := by decide
  rw [hsub, hpred, hobj] at h2
  exact h2

end SparqlGen

namespace WorldTTL

open Util

theorem primaryScan_no_sub (robot fromLoc : Str) (lines : List Str)
    (hno : ∀ l ∈ lines, subIn (str ":robotIsInSpace") l = false) :
    ∀ (i : Nat) (prev : Str) (rbs : Option Nat),
    primaryScan robot fromLoc lines i prev rbs = none := by
  induction lines with
  | nil => intro i prev rbs; rfl
  | cons l ls ih =>
    intro i prev rbs
    have hl := hno l (List.mem_cons_self _ _)
    have ih2 := ih (fun x hx => hno x (List.mem_cons_of_mem _ hx))
    unfold primaryScan
    split
    · rw [hl, if_neg (by decide : ¬ (false = true))]
      exact ih2 _ _ _
    · exact ih2 _ _ _

theorem primaryScan_locate (robot fromLoc l0 : Str) (post : List Str)
    (hpost : ∀ l ∈ post, subIn (str ":robotIsInSpace") l = false)
    (hl0 : subIn (str ":robotIsInSpace") l0 = true)
    (hfrom : subIn (':' :: fromLoc) l0 = true) :
    ∀ (pre : List Str), (∀ l ∈ pre, subIn (str ":robotIsInSpace") l = false) →
    ∀ (i : Nat) (prev : Str) (rbs : Option Nat),
    primaryScan robot fromLoc (pre ++ l0 :: post) i prev rbs = some (i + pre.length) ∨
    primaryScan robot fromLoc (pre ++ l0 :: post) i prev rbs = none := by
  intro pre
  induction pre with
  | nil =>
    intro _ i prev rbs
    rw [List.nil_append]
    unfold primaryScan
    split
    · rw [hl0, if_pos rfl, hfrom, if_pos rfl]
      left
      simp
    · right
      exact primaryScan_no_sub robot fromLoc post hpost _ _ _
  | cons a pre' ih =>
    intro hpre i prev rbs
    have ha := hpre a (List.mem_cons_self _ _)
    have hpre' := fun x hx => hpre x (List.mem_cons_of_mem _ hx)
    rw [List.cons_append]
    unfold primaryScan
    have hlen : ∀ j : Nat, j + 1 + pre'.length = j + (a :: pre').length := by
      intro j; simp [List.length_cons]; omega
    split
    · rw [ha, if_neg (by decide : ¬ (false = true))]
      rcases ih hpre' (i + 1) a (some _) with h | h
      · left; rw [h, hlen i]
      · right; exact h
    · rcases ih hpre' (i + 1) a none with h | h
      · left; rw [h, hlen i]
      · right; exact h

theorem fallbackScan_locate (fromLoc l0 : Str) (post : List Str)
    (hl0 : subIn (str ":robotIsInSpace") l0 = true)
    (hfrom : subIn (':' :: fromLoc) l0 = true) :
    ∀ (pre : List Str), (∀ l ∈ pre, subIn (str ":robotIsInSpace") l = false) →
    fallbackScan fromLoc (pre ++ l0 :: post) = some pre.length := by
  intro pre
  induction pre with
  | nil =>
    intro _
    rw [List.nil_append]
    unfold fallbackScan
    rw [hl0, hfrom]
    simp
  | cons a pre' ih =>
    intro hpre
    have ha := hpre a (List.mem_cons_self _ _)
    rw [List.cons_append]
    unfold fallbackScan
    rw [ha]
    simp only [Bool.false_and, Bool.false_eq_true, if_false]
    rw [ih (fun x hx => hpre x (List.mem_cons_of_mem _ hx))]
    simp

theorem get_append_len (pre post : List Str) (l0 : Str) :
    (pre ++ l0 :: post).get? pre.length = some l0 := by
  induction pre with
  | nil => rfl
  | cons a pre' ih => simpa using ih

theorem set_append_len (pre post : List Str) (l0 x : Str) :
    (pre ++ l0 :: post).set pre.length x = pre ++ x :: post := by
  induction pre with
  | nil => rfl
  | cons a pre' ih => simpa [List.set] using ih

theorem saveIncr_locate (robot fromLoc toLoc l0 : Str) (pre post : List Str)
    (hpre : ∀ l ∈ pre, subIn (str ":robotIsInSpace") l = false)
    (hpost : ∀ l ∈ post, subIn (str ":robotIsInSpace") l = false)
    (hl0 : subIn (str ":robotIsInSpace") l0 = true)
    (hfrom : subIn (':' :: fromLoc) l0 = true) :
    saveIncrementalUpdateToTTL robot fromLoc toLoc (pre ++ l0 :: post) =
      some (pre ++ (repAll (':' :: fromLoc) (':' :: toLoc) l0) :: post) := by
  unfold saveIncrementalUpdateToTTL
  rcases primaryScan_locate robot fromLoc l0 post hpost hl0 hfrom pre hpre 0
      (((pre ++ l0 :: post).head?).getD []) none with h | h
  · rw [h]
    simp only [Nat.zero_add]
    rw [get_append_len, set_append_len]
    rfl
  · rw [h, fallbackScan_locate fromLoc l0 post hl0 hfrom pre hpre]
    show some ((pre ++ l0 :: post).set pre.length
      (repAll (':' :: fromLoc) (':' :: toLoc)
        (((pre ++ l0 :: post).get? pre.length).getD []))) = _
    rw [get_append_len, set_append_len]
    rfl

theorem parseFrom_append (c : Option Str) (xs ys : List Str) :
    parseFrom c (xs ++ ys) = parseFrom c xs ++ parseFrom (curAfter c xs) ys := by
  induction xs generalizing c with
  | nil => rfl
  | cons x xs2 ih =>
    rw [List.cons_append]
    simp only [parseFrom, curAfter]
    rw [ih, List.append_assoc]

theorem parseStep_two (subj p o : Str) (l : Str)
    (htok : lineTokens l = [p, o]) :
    parseStep (some subj) l = ([(subj, p, o)], some subj) := by
  unfold parseStep
  rw [htok]

theorem curAfter_two (c : Option Str) (l : Str) (p o : Str)
    (htok : lineTokens l = [p, o]) : curAfter c [l] = c := by
  unfold curAfter parseStep
  rw [htok]
  cases c <;> rfl

end WorldTTL

namespace WorldTTL

open Util

theorem diff_middle (P Q : List Triple) (a b : Triple) (hab : a ≠ b)
    (haP : a ∉ P) (haQ : a ∉ Q) :
    (dedupF (P ++ a :: Q)).filter (fun t => ¬ (P ++ b :: Q).contains t) = [a] := by
  have h1 : ∀ t ∈ dedupF (P ++ a :: Q),
      (decide (¬ (P ++ b :: Q).contains t = true)) = (decide (t = a)) := by
    intro t ht
    have htmem : t ∈ P ++ a :: Q := (mem_dedupF t _).1 ht
    by_cases hta : t = a
    · subst hta
      have hnot : ¬ (P ++ b :: Q).contains t = true := by
        intro hc
        have : t ∈ P ++ b :: Q := by simpa using hc
        rcases List.mem_append.1 this with h | h
        · exact haP h
        · rcases List.mem_cons.1 h with h2 | h2
          · exact hab h2
          · exact haQ h2
      rw [decide_eq_decide]
      exact iff_of_true hnot rfl
    · have hmem2 : t ∈ P ++ b :: Q := by
        rcases List.mem_append.1 htmem with h | h
        · exact List.mem_append.2 (Or.inl h)
        · rcases List.mem_cons.1 h with h2 | h2
          · exact absurd h2 hta
          · exact List.mem_append.2 (Or.inr (List.mem_cons_of_mem _ h2))
      have hc : (P ++ b :: Q).contains t = true := by simpa using hmem2
      rw [decide_eq_decide]
      exact iff_of_false (fun hn => hn hc) hta
  rw [List.filter_congr h1]
  exact filter_eq_singleton a _ (nodup_dedupF _) ((mem_dedupF a _).2 (by simp))

/-- Claim C2, corrected.  When the old-location token occurs in the file
exactly as the object of the unique `robotIsInSpace` statement (and the
rewritten line parses to the same statement with the new object), the
RDF-level diff between consecutive dynamic versions is exactly the
removal of `(r, robotIsInSpace, from)` and the addition of
`(r, robotIsInSpace, to)`.  The raw-string rewrite does not guarantee
this in general: when the action names a location whose token is a
proper prefix of the file token, other object tokens on the matched line
are corrupted (see the counterexample). -/
theorem C2_amended (robot fromLoc toLoc subj : Str) (pre post : List Str) (l0 : Str)
    (hpre : ∀ l ∈ pre, subIn (str ":robotIsInSpace") l = false)
    (hpost : ∀ l ∈ post, subIn (str ":robotIsInSpace") l = false)
    (hl0 : subIn (str ":robotIsInSpace") l0 = true)
    (hfrom : subIn (':' :: fromLoc) l0 = true)
    (htok : lineTokens l0 = [str ":robotIsInSpace", ':' :: fromLoc])
    (htok2 : lineTokens (repAll (':' :: fromLoc) (':' :: toLoc) l0) =
      [str ":robotIsInSpace", ':' :: toLoc])
    (hcur : curAfter none pre = some subj)
    (hne : fromLoc ≠ toLoc)
    (holdpre : (subj, str ":robotIsInSpace", ':' :: fromLoc) ∉ parseFrom none pre)
    (holdpost : (subj, str ":robotIsInSpace", ':' :: fromLoc) ∉ parseFrom (some subj) post)
    (hnewpre : (subj, str ":robotIsInSpace", ':' :: toLoc) ∉ parseFrom none pre)
    (hnewpost : (subj, str ":robotIsInSpace", ':' :: toLoc) ∉ parseFrom (some subj) post) :
    saveIncrementalUpdateToTTL robot fromLoc toLoc (pre ++ l0 :: post) =
      some (pre ++ (repAll (':' :: fromLoc) (':' :: toLoc) l0) :: post) ∧
    diffTriples (pre ++ l0 :: post)
        (pre ++ (repAll (':' :: fromLoc) (':' :: toLoc) l0) :: post) =
      ([(subj, str ":robotIsInSpace", ':' :: toLoc)],
       [(subj, str ":robotIsInSpace", ':' :: fromLoc)]) := by
  have hsave := saveIncr_locate robot fromLoc toLoc l0 pre post hpre hpost hl0 hfrom
  refine ⟨hsave, ?_⟩
  have hO : parseTTL (pre ++ l0 :: post) =
      parseFrom none pre ++
        (subj, str ":robotIsInSpace", ':' :: fromLoc) :: parseFrom (some subj) post := by
    unfold parseTTL
    rw [parseFrom_append, hcur]
    simp only [parseFrom]
    rw [parseStep_two subj _ _ l0 htok]
    rfl
  have hN : parseTTL (pre ++ (repAll (':' :: fromLoc) (':' :: toLoc) l0) :: post) =
      parseFrom none pre ++
        (subj, str ":robotIsInSpace", ':' :: toLoc) :: parseFrom (some subj) post := by
    unfold parseTTL
    rw [parseFrom_append, hcur]
    simp only [parseFrom]
    rw [parseStep_two subj _ _ _ htok2]
    rfl
  have htn : ((subj, str ":robotIsInSpace", ':' :: toLoc) : Triple) ≠
      (subj, str ":robotIsInSpace", ':' :: fromLoc) := by
    intro h
    have h2 := congrArg (fun t : Triple => t.2.2) h
    simp only at h2
    exact hne (List.cons.inj h2).2.symm
  unfold diffTriples
  rw [hO, hN, Prod.mk.injEq]
  constructor
  · exact diff_middle (parseFrom none pre) (parseFrom (some subj) post)
      (subj, str ":robotIsInSpace", ':' :: toLoc)
      (subj, str ":robotIsInSpace", ':' :: fromLoc) htn hnewpre hnewpost
  · exact diff_middle (parseFrom none pre) (parseFrom (some subj) post)
      (subj, str ":robotIsInSpace", ':' :: fromLoc)
      (subj, str ":robotIsInSpace", ':' :: toLoc) (fun h => htn h.symm)
      holdpre holdpost

/-- Witness for `C2_amended`: the canonical robot block moved from
`corridor_14` to `door_9` yields exactly the one-triple diff. -/
theorem C2_amended_witness :
    saveIncrementalUpdateToTTL (str "robot1") (str "corridor_14") (str "door_9")
        Instances.exTTL =
      some ((Instances.exTTL.take 1) ++
        (repAll (str ":corridor_14") (str ":door_9")
          (str "    :robotIsInSpace :corridor_14 ;")) :: (Instances.exTTL.drop 2)) ∧
    diffTriples Instances.exTTL
        ((Instances.exTTL.take 1) ++
          (repAll (str ":corridor_14") (str ":door_9")
            (str "    :robotIsInSpace :corridor_14 ;")) :: (Instances.exTTL.drop 2)) =
      ([(str ":robot1", str ":robotIsInSpace", str ":door_9")],
       [(str ":robot1", str ":robotIsInSpace", str ":corridor_14")]) := by
  have h := C2_amended (str "robot1") (str "corridor_14") (str "door_9") (str ":robot1")
    [str ":robot1 rdf:type :Robot ;"]
    [str "    :hasHand :left_hand ;", str "    :hasHand :right_hand .",
     str ":left_hand rdf:type :Hand .", str ":right_hand rdf:type :Hand ."]
    (str "    :robotIsInSpace :corridor_14 ;")
    (by decide) (by decide) (by decide) (by decide) (by decide) (by decide)
    (by decide) (by decide) (by decide) (by decide) (by decide) (by decide)
  exact h

/-- Counterexample to claim C2 as stated: executing
`move(robot1, corridor_1, door_9)` on the canonical file (robot at
`corridor_14`) succeeds — the substring `:corridor_1` matches inside
`:corridor_14` — and produces a diff that removes
`(robot1, robotIsInSpace, corridor_14)` and adds
`(robot1, robotIsInSpace, door_94)`, not the claimed removal of
`corridor_1` and addition of `door_9`. -/
theorem C2_counterexample :
    (saveIncrementalUpdateToTTL (str "robot1") (str "corridor_1") (str "door_9")
        Instances.exTTL).isSome = true ∧
    (match saveIncrementalUpdateToTTL (str "robot1") (str "corridor_1") (str "door_9")
        Instances.exTTL with
      | some upd => diffTriples Instances.exTTL upd
      | none => ([], [])) =
      ([(str ":robot1", str ":robotIsInSpace", str ":door_94")],
       [(str ":robot1", str ":robotIsInSpace", str ":corridor_14")]) ∧
    (([(str ":robot1", str ":robotIsInSpace", str ":door_94")],
      [(str ":robot1", str ":robotIsInSpace", str ":corridor_14")]) :
        List Triple × List Triple) ≠
      ([(str ":robot1", str ":robotIsInSpace", str ":door_9")],
       [(str ":robot1", str ":robotIsInSpace", str ":corridor_1")]) := by
  exact ⟨by decide, by decide, by decide⟩

end WorldTTL

namespace PathGen

open Util

theorem mem_nbrs (g : Graph) (a b : Str) :
    b ∈ nbrs g a ↔ adjB g a b = true := by
  unfold nbrs adjB
  rw [List.mem_append, Bool.or_eq_true]
  constructor
  · rintro (h | h)
    · rcases List.mem_filterMap.1 h with ⟨e, he, hsome⟩
      by_cases h1 : e.1 = a
      · rw [if_pos h1] at hsome
        injection hsome with hb
        left
        have : e = (a, b) := by
          cases e; simp at h1 hb; simp [h1, hb]
        simpa using this ▸ he
      · rw [if_neg h1] at hsome; cases hsome
    · rcases List.mem_filterMap.1 h with ⟨e, he, hsome⟩
      by_cases h1 : e.2 = a
      · rw [if_pos h1] at hsome
        injection hsome with hb
        right
        have : e = (b, a) := by
          cases e; simp at h1 hb; simp [h1, hb]
        simpa using this ▸ he
      · rw [if_neg h1] at hsome; cases hsome
  · rintro (h | h)
    · refine Or.inl (List.mem_filterMap.2 ⟨(a, b), ?_, by simp⟩)
      simpa using h
    · refine Or.inr (List.mem_filterMap.2 ⟨(b, a), ?_, by simp⟩)
      simpa using h

theorem adjB_symm (g : Graph) (a b : Str) : adjB g a b = adjB g b a := by
  unfold adjB
  rw [Bool.or_comm]

theorem distLe_refl (g : Graph) (n : Nat) (u : Str) : distLe g n u u = true := by
  cases n with
  | zero => simp [distLe]
  | succ m => simp [distLe]

theorem distLe_step (g : Graph) (n : Nat) (u w v : Str)
    (hadj : adjB g u w = true) (h : distLe g n w v = true) :
    distLe g (n + 1) u v = true := by
  unfold distLe
  rw [Bool.or_eq_true]
  right
  rw [List.any_eq_true]
  exact ⟨w, (mem_nbrs g u w).2 hadj, h⟩

theorem distLe_succ (g : Graph) (n : Nat) (u v : Str)
    (h : distLe g n u v = true) : distLe g (n + 1) u v = true := by
  induction n generalizing u with
  | zero =>
    unfold distLe at h ⊢
    rw [Bool.or_eq_true]
    exact Or.inl h
  | succ m ih =>
    unfold distLe at h ⊢
    rw [Bool.or_eq_true] at h ⊢
    rcases h with h | h
    · exact Or.inl h
    · right
      rw [List.any_eq_true] at h ⊢
      rcases h with ⟨w, hw, hd⟩
      exact ⟨w, hw, ih w hd⟩

theorem distLe_mono (g : Graph) (m n : Nat) (u v : Str) (hmn : m ≤ n)
    (h : distLe g m u v = true) : distLe g n u v = true := by
  induction n with
  | zero =>
    have : m = 0 := Nat.le_zero.1 hmn
    subst this
    exact h
  | succ k ih =>
    rcases Nat.lt_or_ge m (k + 1) with hlt | hge
    · exact distLe_succ g k u v (ih (Nat.lt_succ_iff.1 hlt))
    · have : m = k + 1 := le_antisymm hmn hge
      subst this
      exact h

theorem distLe_trans (g : Graph) (m n : Nat) (u w v : Str)
    (h1 : distLe g m u w = true) (h2 : distLe g n w v = true) :
    distLe g (m + n) u v = true := by
  induction m generalizing u with
  | zero =>
    have : u = w := by
      unfold distLe at h1
      exact eq_of_beq h1
    subst this
    simpa using h2
  | succ k ih =>
    unfold distLe at h1
    rw [Bool.or_eq_true] at h1
    rcases h1 with h1 | h1
    · have : u = w := eq_of_beq h1
      subst this
      exact distLe_mono g n (k + 1 + n) u v (by omega) h2
    · rw [List.any_eq_true] at h1
      rcases h1 with ⟨w2, hw2, hd⟩
      have := ih w2 hd
      have hres := distLe_step g (k + n) u w2 v ((mem_nbrs g u w2).1 hw2) this
      have : k + n + 1 = k + 1 + n := by omega
      rwa [this] at hres

theorem distLe_snoc (g : Graph) (n : Nat) (u w v : Str)
    (h : distLe g n u w = true) (hadj : adjB g w v = true) :
    distLe g (n + 1) u v = true := by
  have h2 : distLe g 1 w v = true :=
    distLe_step g 0 w v v hadj (distLe_refl g 0 v)
  exact distLe_trans g n 1 u w v h h2

theorem distLe_symm (g : Graph) (n : Nat) (u v : Str)
    (h : distLe g n u v = true) : distLe g n v u = true := by
  induction n generalizing u v with
  | zero =>
    unfold distLe at h ⊢
    have : u = v := eq_of_beq h
    subst this
    exact h
  | succ k ih =>
    unfold distLe at h
    rw [Bool.or_eq_true] at h
    rcases h with h | h
    · have : u = v := eq_of_beq h
      subst this
      exact distLe_refl g (k + 1) u
    · rw [List.any_eq_true] at h
      rcases h with ⟨w, hw, hd⟩
      have hvw := ih w v hd
      have hadj : adjB g w u = true := by
        rw [adjB_symm]
        exact (mem_nbrs g u w).1 hw
      exact distLe_snoc g k v w u hvw hadj

end PathGen

namespace PathGen

open Util

theorem chain_head (g : Graph) :
    ∀ (p : List Str) (j : Nat), chainB g p = true → j < p.length →
      distLe g j ((p.get? 0).getD []) ((p.get? j).getD []) = true := by
  intro p
  induction p with
  | nil =>
    intro j _ hj
    exact absurd hj (Nat.not_lt_zero j)
  | cons a rest ih =>
    intro j hch hj
    cases j with
    | zero => simp [distLe]
    | succ jj =>
      cases rest with
      | nil =>
        simp at hj
      | cons b r =>
        unfold chainB at hch
        rw [Bool.and_eq_true] at hch
        have hjj : jj < (b :: r).length := by
          simpa using Nat.lt_of_succ_lt_succ hj
        have hrest := ih jj hch.2 hjj
        simp only [List.get?_cons_zero, Option.getD_some] at hrest
        simp only [List.get?_cons_succ, List.get?_cons_zero, Option.getD_some]
        exact distLe_step g jj a b (((b :: r).get? jj).getD []) hch.1 hrest

theorem chain_idx (g : Graph) :
    ∀ (p : List Str), chainB g p = true → ∀ i j, i ≤ j → j < p.length →
      distLe g (j - i) ((p.get? i).getD []) ((p.get? j).getD []) = true := by
  intro p
  induction p with
  | nil =>
    intro _ i j _ hj
    exact absurd hj (Nat.not_lt_zero j)
  | cons a rest ih =>
    intro hch i j hij hj
    cases i with
    | zero =>
      simpa using chain_head g (a :: rest) j hch hj
    | succ ii =>
      cases j with
      | zero => exact absurd hij (by omega)
      | succ jj =>
        cases rest with
        | nil => simp at hj
        | cons b r =>
          unfold chainB at hch
          rw [Bool.and_eq_true] at hch
          have := ih hch.2 ii jj (Nat.le_of_succ_le_succ hij)
            (by simpa using Nat.lt_of_succ_lt_succ hj)
          simpa [Nat.succ_sub_succ] using this

theorem ShortestHops_unique (g : Graph) (u v : Str) (d d' : Nat)
    (h : ShortestHops g u v d) (h' : ShortestHops g u v d') : d = d' := by
  rcases Nat.lt_trichotomy d d' with hlt | he | hgt
  · have hc := h'.2 d hlt
    rw [h.1] at hc
    cases hc
  · exact he
  · have hc := h.2 d' hgt
    rw [h'.1] at hc
    cases hc

theorem ShortestHops_symm (g : Graph) (u v : Str) (d : Nat)
    (h : ShortestHops g u v d) : ShortestHops g v u d := by
  refine ⟨distLe_symm g d u v h.1, fun e he => ?_⟩
  cases hb : distLe g e v u with
  | false => rfl
  | true =>
    have := distLe_symm g e v u hb
    rw [h.2 e he] at this
    cases this

theorem shortest_adj (g : Graph) (u v : Str) (hadj : adjB g u v = true)
    (hne : u ≠ v) : ShortestHops g u v 1 := by
  refine ⟨distLe_step g 0 u v v hadj (distLe_refl g 0 v), fun e he => ?_⟩
  have : e = 0 := by omega
  subst this
  simpa [distLe] using hne

theorem shortestHops_subpath (g : Graph) (p : List Str) (u v : Str) (i j : Nat)
    (hch : chainB g p = true) (hhead : p.head? = some u)
    (hlast : p.getLast? = some v) (hsh : ShortestHops g u v (p.length - 1))
    (hij : i < j) (hj : j < p.length) :
    ShortestHops g ((p.get? i).getD []) ((p.get? j).getD []) (j - i) := by
  have hget0 : (p.get? 0).getD [] = u := by
    rw [← List.get?_zero] at hhead
    rw [hhead]
    rfl
  have hgetl : (p.get? (p.length - 1)).getD [] = v := by
    rw [List.getLast?_eq_get?] at hlast
    rw [hlast]
    rfl
  refine ⟨chain_idx g p hch i j (Nat.le_of_lt hij) hj, fun e he => ?_⟩
  cases hb : distLe g e ((p.get? i).getD []) ((p.get? j).getD []) with
  | false => rfl
  | true =>
    have h0i : distLe g i u ((p.get? i).getD []) = true := by
      have := chain_idx g p hch 0 i (Nat.zero_le i) (Nat.lt_trans hij hj)
      rw [hget0] at this
      simpa using this
    have hjl : distLe g (p.length - 1 - j) ((p.get? j).getD []) v = true := by
      have := chain_idx g p hch j (p.length - 1) (by omega) (by omega)
      rwa [hgetl] at this
    have h1 := distLe_trans g i e u ((p.get? i).getD []) ((p.get? j).getD []) h0i hb
    have h2 := distLe_trans g (i + e) (p.length - 1 - j) u ((p.get? j).getD []) v h1 hjl
    have hlt : i + e + (p.length - 1 - j) < p.length - 1 := by omega
    have hc := hsh.2 (i + e + (p.length - 1 - j)) hlt
    rw [h2] at hc
    cases hc

end PathGen

namespace PathGen

open Util

theorem sound_insOver (g : Graph) (k : Str × Str) (val : Nat) (tab : DistTab)
    (h : SoundTab g tab) (hval : ShortestHops g k.1 k.2 val) :
    SoundTab g (insOver k val tab) := by
  intro u v d hl
  rw [alookup_insOver] at hl
  by_cases he : (u, v) = k
  · rw [if_pos he] at hl
    injection hl with hd
    subst hd
    rw [← he] at hval
    exact hval
  · rw [if_neg he] at hl
    exact h u v d hl

theorem sound_insAbsent (g : Graph) (k : Str × Str) (val : Nat) (tab : DistTab)
    (h : SoundTab g tab) (hval : ShortestHops g k.1 k.2 val) :
    SoundTab g (insAbsent k val tab) := by
  intro u v d hl
  rw [alookup_insAbsent] at hl
  by_cases he : (u, v) = k
  · rw [if_pos he] at hl
    cases hold : alookup k tab with
    | none =>
      rw [hold] at hl
      injection hl with hd
      subst hd
      rw [← he] at hval
      exact hval
    | some b =>
      rw [hold] at hl
      injection hl with hd
      have := h k.1 k.2 b (by simpa using hold)
      rw [← he] at this
      rwa [hd] at this
  · rw [if_neg he] at hl
    exact h u v d hl

theorem mem_foldl_append {α β : Type} (f : β → List α) :
    ∀ (L : List β) (acc : List α) (x : α),
      x ∈ L.foldl (fun acc i => acc ++ f i) acc ↔ x ∈ acc ∨ ∃ i ∈ L, x ∈ f i := by
  intro L
  induction L with
  | nil => intro acc x; simp
  | cons a tl ih =>
    intro acc x
    rw [List.foldl_cons, ih]
    simp only [List.mem_append, List.mem_cons]
    constructor
    · rintro ((h | h) | ⟨i, hi, hx⟩)
      · exact Or.inl h
      · exact Or.inr ⟨a, Or.inl rfl, h⟩
      · exact Or.inr ⟨i, Or.inr hi, hx⟩
    · rintro (h | ⟨i, (hi | hi), hx⟩)
      · exact Or.inl (Or.inl h)
      · subst hi
        exact Or.inl (Or.inr hx)
      · exact Or.inr ⟨i, hi, hx⟩

theorem mem_idxPairs (n i j : Nat) :
    (i, j) ∈ idxPairs n ↔ i < j ∧ j < n := by
  unfold idxPairs
  rw [mem_foldl_append]
  constructor
  · rintro (h | ⟨i0, _, hmem⟩)
    · cases h
    · rcases List.mem_filterMap.1 hmem with ⟨j0, hj0, hif⟩
      by_cases hlt : i0 < j0
      · rw [if_pos hlt] at hif
        injection hif with h1
        injection h1 with h1 h2
        subst h1
        subst h2
        exact ⟨hlt, List.mem_range.1 hj0⟩
      · rw [if_neg hlt] at hif
        cases hif
  · rintro ⟨hij, hjn⟩
    right
    refine ⟨i, List.mem_range.2 (Nat.lt_trans hij hjn), List.mem_filterMap.2 ⟨j, List.mem_range.2 hjn, ?_⟩⟩
    rw [if_pos hij]

theorem sound_record_aux (g : Graph) (p : List Str)
    (hsub : ∀ i j, i < j → j < p.length →
      ShortestHops g ((p.get? i).getD []) ((p.get? j).getD []) (j - i)) :
    ∀ (L : List (Nat × Nat)) (acc : DistTab),
      (∀ ij ∈ L, ij.1 < ij.2 ∧ ij.2 < p.length) → SoundTab g acc →
      SoundTab g (L.foldl
        (fun acc ij =>
          insAbsent ((p.get? ij.2).getD [], (p.get? ij.1).getD []) (ij.2 - ij.1)
            (insAbsent ((p.get? ij.1).getD [], (p.get? ij.2).getD []) (ij.2 - ij.1) acc))
        acc) := by
  intro L
  induction L with
  | nil => intro acc _ hS; exact hS
  | cons ij tl ih =>
    intro acc hL hS
    rw [List.foldl_cons]
    have hb := hL ij (List.mem_cons_self ij tl)
    have hfwd := hsub ij.1 ij.2 hb.1 hb.2
    refine ih _ (fun x hx => hL x (List.mem_cons_of_mem ij hx)) ?_
    exact sound_insAbsent g _ _ _
      (sound_insAbsent g _ _ _ hS hfwd) (ShortestHops_symm g _ _ _ hfwd)

theorem sound_recordSubpaths (g : Graph) (p : List Str) (dists : DistTab)
    (hS : SoundTab g dists)
    (hsub : ∀ i j, i < j → j < p.length →
      ShortestHops g ((p.get? i).getD []) ((p.get? j).getD []) (j - i)) :
    SoundTab g (recordSubpaths p dists) := by
  have hbounds : ∀ ij ∈ idxPairs p.length, ij.1 < ij.2 ∧ ij.2 < p.length := by
    intro ij hij
    cases ij with
    | mk a b => exact (mem_idxPairs p.length a b).1 hij
  exact sound_record_aux g p hsub (idxPairs p.length) dists hbounds hS

end PathGen

namespace PathGen

open Util

theorem sound_processPair (g : Graph) (sp : Str → Str → Option (List Str))
    (hsp : SpSpec g sp) (st : List Str × DistTab) (pr : Str × Str)
    (hne : pr.1 ≠ pr.2) (hS : SoundTab g st.2) :
    SoundTab g (processPair g sp st pr).2 := by
  unfold processPair
  by_cases hcond : g.nodes.contains pr.1 ∧ g.nodes.contains pr.2 ∧
      g.locs.contains pr.1 ∧ g.locs.contains pr.2
  · rw [if_pos hcond]
    cases hspr : sp pr.1 pr.2 with
    | some p =>
      rcases hsp pr.1 pr.2 p hspr with ⟨hch, hhead, hlast, hsh⟩
      have hS2 : SoundTab g (insOver (pr.2, pr.1) (p.length - 1)
          (insOver (pr.1, pr.2) (p.length - 1) st.2)) :=
        sound_insOver g _ _ _ (sound_insOver g _ _ _ hS hsh)
          (ShortestHops_symm g _ _ _ hsh)
      exact sound_recordSubpaths g p _ hS2
        (fun i j hij hj => shortestHops_subpath g p pr.1 pr.2 i j hch hhead hlast hsh hij hj)
    | none =>
      by_cases hadj : adjB g pr.1 pr.2 = true
      · rw [if_pos hadj]
        have h1 := shortest_adj g pr.1 pr.2 hadj hne
        exact sound_insOver g _ _ _ (sound_insOver g _ _ _ hS h1)
          (ShortestHops_symm g _ _ _ h1)
      · rw [if_neg hadj]
        exact hS
  · rw [if_neg hcond]
    exact hS

theorem sound_foldPairs (g : Graph) (sp : Str → Str → Option (List Str))
    (hsp : SpSpec g sp) :
    ∀ (prs : List (Str × Str)) (st : List Str × DistTab),
      (∀ pr ∈ prs, pr.1 ≠ pr.2) → SoundTab g st.2 →
      SoundTab g (prs.foldl (processPair g sp) st).2 := by
  intro prs
  induction prs with
  | nil => intro st _ hS; exact hS
  | cons pr tl ih =>
    intro st hne hS
    rw [List.foldl_cons]
    exact ih _ (fun x hx => hne x (List.mem_cons_of_mem pr hx))
      (sound_processPair g sp hsp st pr (hne pr (List.mem_cons_self pr tl)) hS)

theorem mem_pairsOf (l : List Str) (pr : Str × Str) :
    pr ∈ pairsOf l → ∃ i j, i < j ∧ (l.get? i) = some pr.1 ∧ (l.get? j) = some pr.2 := by
  induction l with
  | nil => intro h; cases h
  | cons a rest ih =>
    intro h
    unfold pairsOf at h
    rcases List.mem_append.1 h with h | h
    · rcases List.mem_map.1 h with ⟨b, hb, hab⟩
      rcases List.get_of_mem hb with ⟨⟨j, hj⟩, hget⟩
      refine ⟨0, j + 1, Nat.succ_pos j, ?_, ?_⟩
      · rw [← hab]
        rfl
      · rw [← hab]
        simp only [List.get?_cons_succ]
        rw [List.get?_eq_get hj, hget]
    · rcases ih h with ⟨i, j, hij, hi, hj⟩
      exact ⟨i + 1, j + 1, Nat.succ_lt_succ hij, by simpa using hi, by simpa using hj⟩

theorem pairsOf_ne (l : List Str) (hnd : l.Nodup) :
    ∀ pr ∈ pairsOf l, pr.1 ≠ pr.2 := by
  induction l with
  | nil => intro pr h; cases h
  | cons a rest ih =>
    intro pr h
    rcases List.nodup_cons.1 hnd with ⟨hna, hrest⟩
    unfold pairsOf at h
    rcases List.mem_append.1 h with h | h
    · rcases List.mem_map.1 h with ⟨b, hb, hab⟩
      rw [← hab]
      intro he
      simp only [] at he
      exact hna (by rw [he]; exact hb)
    · exact ih hrest pr h

theorem insSorted_perm (a : Str) (l : List Str) :
    List.Perm (insSorted a l) (a :: l) := by
  induction l with
  | nil => exact List.Perm.refl _
  | cons b bs ih =>
    unfold insSorted
    by_cases h : lexLe a b = true
    · rw [if_pos h]
    · rw [if_neg h]
      exact List.Perm.trans (List.Perm.cons b ih) (List.Perm.swap a b bs)

theorem sortStr_perm (l : List Str) : List.Perm (sortStr l) l := by
  induction l with
  | nil => exact List.Perm.refl _
  | cons a as ih =>
    unfold sortStr
    exact List.Perm.trans (insSorted_perm a (sortStr as)) (List.Perm.cons a ih)

theorem nodup_sortStr (l : List Str) (h : l.Nodup) : (sortStr l).Nodup :=
  (sortStr_perm l).nodup_iff.2 h

theorem mem_topoFoldAux (step : List (Str × Str) → (Str × Str) → List (Str × Str))
    (hstep : ∀ acc e, step acc e = acc ∨ step acc e = acc ++ [e]) :
    ∀ (L : List (Str × Str)) (acc : List (Str × Str)) (x : Str × Str),
      x ∈ L.foldl step acc → x ∈ acc ∨ x ∈ L := by
  intro L
  induction L with
  | nil => intro acc x h; exact Or.inl h
  | cons e tl ih =>
    intro acc x h
    rw [List.foldl_cons] at h
    rcases ih (step acc e) x h with h2 | h2
    · rcases hstep acc e with he | he
      · rw [he] at h2
        exact Or.inl h2
      · rw [he] at h2
        rcases List.mem_append.1 h2 with h3 | h3
        · exact Or.inl h3
        · right
          simp at h3
          simp [h3]
    · exact Or.inr (List.mem_cons_of_mem e h2)

theorem mem_topoConnections (g : Graph) (univ : List Str) (c : Str × Str)
    (h : c ∈ topoConnections g univ) : adjB g c.1 c.2 = true ∧ c.1 ≠ c.2 := by
  unfold topoConnections at h
  have hstep : ∀ (acc : List (Str × Str)) (e : Str × Str),
      (if acc.contains e ∨ acc.contains (e.2, e.1) then acc else acc ++ [e]) = acc ∨
      (if acc.contains e ∨ acc.contains (e.2, e.1) then acc else acc ++ [e]) = acc ++ [e] := by
    intro acc e
    by_cases hc : acc.contains e ∨ acc.contains (e.2, e.1)
    · exact Or.inl (if_pos hc)
    · exact Or.inr (if_neg hc)
  rcases mem_topoFoldAux _ hstep _ [] c h with h2 | h2
  · cases h2
  · have := List.mem_filter.1 h2
    refine ⟨?_, ?_⟩
    · unfold adjB
      rw [Bool.or_eq_true]
      left
      simpa using this.1
    · have hd := this.2
      rw [decide_eq_true_eq] at hd
      exact hd.2.2

theorem sound_topoFold (g : Graph) :
    ∀ (L : List (Str × Str)) (acc : DistTab),
      (∀ c ∈ L, adjB g c.1 c.2 = true ∧ c.1 ≠ c.2) → SoundTab g acc →
      SoundTab g (L.foldl (fun acc c => insAbsent (c.2, c.1) 1 (insAbsent c 1 acc)) acc) := by
  intro L
  induction L with
  | nil => intro acc _ hS; exact hS
  | cons c tl ih =>
    intro acc hL hS
    rw [List.foldl_cons]
    have hc := hL c (List.mem_cons_self c tl)
    have h1 := shortest_adj g c.1 c.2 hc.1 hc.2
    exact ih _ (fun x hx => hL x (List.mem_cons_of_mem c hx))
      (sound_insAbsent g _ _ _ (sound_insAbsent g _ _ _ hS h1)
        (ShortestHops_symm g _ _ _ h1))

theorem sound_topologyDistances (g : Graph) (univ : List Str) (pre : DistTab)
    (hS : SoundTab g pre) : SoundTab g (topologyDistances g univ pre) := by
  unfold topologyDistances
  exact sound_topoFold g _ pre (fun c hc => mem_topoConnections g univ c hc) hS

end PathGen

namespace PathGen

open Util

theorem present_insOver {α β : Type} [DecidableEq α] (k k2 : α) (v : β)
    (m : List (α × β)) (h : (alookup k2 m).isSome = true) :
    (alookup k2 (insOver k v m)).isSome = true := by
  rw [alookup_insOver]
  by_cases he : k2 = k
  · rw [if_pos he]
    rfl
  · rw [if_neg he]
    exact h

theorem present_insAbsent {α β : Type} [DecidableEq α] (k k2 : α) (v : β)
    (m : List (α × β)) (h : (alookup k2 m).isSome = true) :
    (alookup k2 (insAbsent k v m)).isSome = true := by
  rw [alookup_insAbsent]
  by_cases he : k2 = k
  · rw [if_pos he]
    cases alookup k m with
    | none => rfl
    | some b => rfl
  · rw [if_neg he]
    exact h

theorem present_insAbsent_self {α β : Type} [DecidableEq α] (k : α) (v : β)
    (m : List (α × β)) : (alookup k (insAbsent k v m)).isSome = true := by
  rw [alookup_insAbsent]
  rw [if_pos rfl]
  cases alookup k m with
  | none => rfl
  | some b => rfl

theorem present_record_mono (p : List Str) :
    ∀ (L : List (Nat × Nat)) (acc : DistTab) (k : Str × Str),
      (alookup k acc).isSome = true →
      (alookup k (L.foldl
        (fun acc ij =>
          insAbsent ((p.get? ij.2).getD [], (p.get? ij.1).getD []) (ij.2 - ij.1)
            (insAbsent ((p.get? ij.1).getD [], (p.get? ij.2).getD []) (ij.2 - ij.1) acc))
        acc)).isSome = true := by
  intro L
  induction L with
  | nil => intro acc k h; exact h
  | cons ij tl ih =>
    intro acc k h
    rw [List.foldl_cons]
    exact ih _ k (present_insAbsent _ _ _ _ (present_insAbsent _ _ _ _ h))

theorem present_record_mem (p : List Str) :
    ∀ (L : List (Nat × Nat)) (acc : DistTab) (ij : Nat × Nat), ij ∈ L →
      (alookup ((p.get? ij.1).getD [], (p.get? ij.2).getD [])
        (L.foldl
          (fun acc ij =>
            insAbsent ((p.get? ij.2).getD [], (p.get? ij.1).getD []) (ij.2 - ij.1)
              (insAbsent ((p.get? ij.1).getD [], (p.get? ij.2).getD []) (ij.2 - ij.1) acc))
          acc)).isSome = true := by
  intro L
  induction L with
  | nil => intro acc ij h; cases h
  | cons hd tl ih =>
    intro acc ij h
    rw [List.foldl_cons]
    rcases List.mem_cons.1 h with h | h
    · subst h
      exact present_record_mono p tl _ _
        (present_insAbsent _ _ _ _ (present_insAbsent_self _ _ _))
    · exact ih _ ij h

theorem present_recordSubpaths (p : List Str) (dists : DistTab) (i j : Nat)
    (hij : i < j) (hj : j < p.length) :
    (alookup ((p.get? i).getD [], (p.get? j).getD [])
      (recordSubpaths p dists)).isSome = true := by
  unfold recordSubpaths
  exact present_record_mem p (idxPairs p.length) dists (i, j)
    ((mem_idxPairs p.length i j).2 ⟨hij, hj⟩)

theorem present_processPair (g : Graph) (sp : Str → Str → Option (List Str))
    (st : List Str × DistTab) (pr : Str × Str) (k : Str × Str)
    (h : (alookup k st.2).isSome = true) :
    (alookup k (processPair g sp st pr).2).isSome = true := by
  unfold processPair
  by_cases hcond : g.nodes.contains pr.1 ∧ g.nodes.contains pr.2 ∧
      g.locs.contains pr.1 ∧ g.locs.contains pr.2
  · rw [if_pos hcond]
    cases hspr : sp pr.1 pr.2 with
    | some p =>
      unfold recordSubpaths
      exact present_record_mono p (idxPairs p.length) _ k
        (present_insOver _ _ _ _ (present_insOver _ _ _ _ h))
    | none =>
      by_cases hadj : adjB g pr.1 pr.2 = true
      · rw [if_pos hadj]
        exact present_insOver _ _ _ _ (present_insOver _ _ _ _ h)
      · rw [if_neg hadj]
        exact h
  · rw [if_neg hcond]
    exact h

theorem present_foldPairs_mono (g : Graph) (sp : Str → Str → Option (List Str)) :
    ∀ (prs : List (Str × Str)) (st : List Str × DistTab) (k : Str × Str),
      (alookup k st.2).isSome = true →
      (alookup k (prs.foldl (processPair g sp) st).2).isSome = true := by
  intro prs
  induction prs with
  | nil => intro st k h; exact h
  | cons pr tl ih =>
    intro st k h
    rw [List.foldl_cons]
    exact ih _ k (present_processPair g sp st pr k h)

theorem present_foldPairs_mem (g : Graph) (sp : Str → Str → Option (List Str))
    (pr : Str × Str) (p : List Str) (i j : Nat)
    (hcond : g.nodes.contains pr.1 ∧ g.nodes.contains pr.2 ∧
      g.locs.contains pr.1 ∧ g.locs.contains pr.2)
    (hspr : sp pr.1 pr.2 = some p) (hij : i < j) (hj : j < p.length) :
    ∀ (prs : List (Str × Str)) (st : List Str × DistTab), pr ∈ prs →
      (alookup ((p.get? i).getD [], (p.get? j).getD [])
        (prs.foldl (processPair g sp) st).2).isSome = true := by
  intro prs
  induction prs with
  | nil => intro st h; cases h
  | cons hd tl ih =>
    intro st h
    rw [List.foldl_cons]
    rcases List.mem_cons.1 h with h | h
    · subst h
      refine present_foldPairs_mono g sp tl _ _ ?_
      unfold processPair
      rw [if_pos hcond, hspr]
      exact present_recordSubpaths p _ i j hij hj
    · exact ih _ h

end PathGen

namespace PathGen

open Util

theorem exSp_spec : SpSpec Instances.exGraph Instances.exSp := by
  intro u v p h
  unfold Instances.exSp at h
  split_ifs at h with h1 h2 h3
  · obtain ⟨rfl, rfl⟩ := h1
    injection h with h
    subst h
    exact ⟨by decide, by decide, by decide, by decide, by decide⟩
  · obtain ⟨rfl, rfl⟩ := h2
    injection h with h
    subst h
    exact ⟨by decide, by decide, by decide, by decide, by decide⟩
  · obtain ⟨rfl, rfl⟩ := h3
    injection h with h
    subst h
    exact ⟨by decide, by decide, by decide, by decide, by decide⟩

/-- **C5 (amended).** Soundness of the emitted distance facts: given a
`shortestPath` oracle meeting its specification, every entry of the
merged topology distance table equals the exact shortest `hasPathTo`
hop count of its key pair, and for every queried location pair whose
`MATCH` conditions hold and whose query returns a path `p`, every index
pair `(i, j)`, `i < j`, of `p` is recorded in the harvested table with
distance exactly `j - i`.  (The original claim's universal coverage of
the path-expanded universe fails: see the counterexample.) -/
theorem C5_amended (g : Graph) (sp : Str → Str → Option (List Str))
    (locationIds : List Str) (hsp : SpSpec g sp) :
    (∀ u v d, alookup (u, v)
        (topologyDistances g (getLocationsWithPaths g sp locationIds).1
          (getLocationsWithPaths g sp locationIds).2) = some d →
      ShortestHops g u v d) ∧
    (∀ pr ∈ pairsOf (sortStr (dedupF locationIds)), ∀ (p : List Str) (i j : Nat),
      ¬ locationIds.length < 2 →
      (g.nodes.contains pr.1 ∧ g.nodes.contains pr.2 ∧
        g.locs.contains pr.1 ∧ g.locs.contains pr.2) →
      sp pr.1 pr.2 = some p → i < j → j < p.length →
      alookup ((p.get? i).getD [], (p.get? j).getD [])
        (getLocationsWithPaths g sp locationIds).2 = some (j - i)) := by
  have hsound : SoundTab g (getLocationsWithPaths g sp locationIds).2 := by
    unfold getLocationsWithPaths
    by_cases hlen : locationIds.length < 2
    · rw [if_pos hlen]
      intro u v d hl
      simp [alookup] at hl
    · rw [if_neg hlen]
      refine sound_foldPairs g sp hsp _ _ ?_ ?_
      · exact pairsOf_ne _ (nodup_sortStr _ (nodup_dedupF _))
      · intro u v d hl
        simp [alookup] at hl
  constructor
  · intro u v d hl
    exact sound_topologyDistances g _ _ hsound u v d hl
  · intro pr hpr p i j hlen hcond hspr hij hj
    have htab : (getLocationsWithPaths g sp locationIds).2 =
        ((pairsOf (sortStr (dedupF locationIds))).foldl (processPair g sp)
          (dedupF locationIds, [])).2 := by
      unfold getLocationsWithPaths
      rw [if_neg hlen]
    have hpres := present_foldPairs_mem g sp pr p i j hcond hspr hij hj
      (pairsOf (sortStr (dedupF locationIds))) (dedupF locationIds, []) hpr
    rw [htab]
    cases hl : alookup ((p.get? i).getD [], (p.get? j).getD [])
        ((pairsOf (sortStr (dedupF locationIds))).foldl (processPair g sp)
          (dedupF locationIds, [])).2 with
    | none =>
      rw [hl] at hpres
      cases hpres
    | some d =>
      have h1 := hsound ((p.get? i).getD []) ((p.get? j).getD []) d (by rw [htab]; exact hl)
      rcases hsp pr.1 pr.2 p hspr with ⟨hch, hhead, hlast, hsh⟩
      have h2 := shortestHops_subpath g p pr.1 pr.2 i j hch hhead hlast hsh hij hj
      rw [ShortestHops_unique g _ _ d (j - i) h1 h2]

/-- **C5 witness.** On the six-node example graph with locations
`a, b, c`: the merged table entry for `(a, x)` is certified as the
shortest hop count 1, and the subpath pair `(a, b)` of the returned
path `[a, x, b]` is recorded with distance 2. -/
theorem C5_amended_witness :
    SpSpec Instances.exGraph Instances.exSp ∧
    ShortestHops Instances.exGraph (str "a") (str "x") 1 ∧
    alookup (str "a", str "b")
      (getLocationsWithPaths Instances.exGraph Instances.exSp
        [str "a", str "b", str "c"]).2 = some 2 := by
  have h := C5_amended Instances.exGraph Instances.exSp
    [str "a", str "b", str "c"] exSp_spec
  refine ⟨exSp_spec, ?_, ?_⟩
  · exact h.1 (str "a") (str "x") 1 (by decide)
  · have := h.2 (str "a", str "b") (by decide) [str "a", str "x", str "b"]
      0 2 (by decide) (by decide) (by decide) (by decide) (by decide)
    simpa using this

/-- **C5 counterexample.** The original claim fails for the
path-expanded universe: with locations `a, b, c` the returned paths
pull `x` and `y` into the universe, yet no distance fact at all is
emitted for `(x, y)` although their shortest `hasPathTo` hop count
is 2. -/
theorem C5_counterexample :
    SpSpec Instances.exGraph Instances.exSp ∧
    (getLocationsWithPaths Instances.exGraph Instances.exSp
        [str "a", str "b", str "c"]).1.contains (str "x") = true ∧
    (getLocationsWithPaths Instances.exGraph Instances.exSp
        [str "a", str "b", str "c"]).1.contains (str "y") = true ∧
    alookup (str "x", str "y")
      (topologyDistances Instances.exGraph
        (getLocationsWithPaths Instances.exGraph Instances.exSp
          [str "a", str "b", str "c"]).1
        (getLocationsWithPaths Instances.exGraph Instances.exSp
          [str "a", str "b", str "c"]).2) = none ∧
    ShortestHops Instances.exGraph (str "x") (str "y") 2 :=
  ⟨exSp_spec, by decide, by decide, by decide, by decide, by decide⟩

end PathGen
